import Mathlib

/-!
# A verification development for the `simd-csv` CSV reader/writer library

This file shallowly embeds the core data model and algorithms of the
`simd-csv` Rust crate and proves (or refutes) a collection of claims made by
its natural-language specification.

Bytes are modelled as `Nat` values (every byte read from a stream is `< 256`,
but none of the algorithms below perform arithmetic on byte values — they only
compare them for equality — so no modular reduction is needed).  Byte strings
(`&[u8]`, `Vec<u8>`) are modelled as `List Nat`.  Rust iterators and `while`
loops become explicit recursion (fuelled where a convenient measure is not
structural); fallible code returns `Except`/`Option`.

The embedding covers, in order:

* `src/utils.rs`: `trim_trailing_crlf`, `trim_bom`, `unquoted`, `unescape`,
  `unescape_to` (plus `trim_trailing_cr`, which is referenced by
  `src/core.rs` but whose definition is not part of the sources; it is
  modelled from the spec).
* `src/searcher.rs`: the amortized three-needle SSE2 searcher
  (`SSE2Indices::next`), modelled at the level of 16-bit move masks.
* `src/records.rs`: `ZeroCopyByteRecord`, `ByteRecord`, `ByteRecordBuilder`.
* `src/core.rs`: `CoreReader` with its three entry points `split_record`,
  `split_record_and_find_separators` and `read_record`.
* `src/buffer.rs`: `BufReaderWithPosition` and `ScratchBuffer`.
* `src/writer.rs`: the quote decision and escape emission paths of `Writer`.
* `src/seeker.rs`: `Seeker::find_record_after` and its `lookahead` helper.
-/

namespace SimdCsv

/-- Line feed byte `\n`. -/
def LF : Nat := 10

/-- Carriage return byte `\r`. -/
def CR : Nat := 13

/-- `memchr::memchr(needle, haystack)`: index of the first occurrence of
`needle` in `haystack`. -/
def memchr (needle : Nat) (haystack : List Nat) : Option Nat :=
  haystack.findIdx? (fun b => b == needle)

/-- `memchr::memchr2(n1, n2, haystack)`: index of the first occurrence of
either needle. -/
def memchr2 (n1 n2 : Nat) (haystack : List Nat) : Option Nat :=
  haystack.findIdx? (fun b => b == n1 || b == n2)

/-- Rust slice expression `s[start..stop]` (for in-range indices). -/
def sliceRange (s : List Nat) (start stop : Nat) : List Nat :=
  (s.drop start).take (stop - start)

/-- `utils.rs::trim_trailing_crlf`: drop one trailing LF together with the CR
immediately preceding it, if present. -/
def trim_trailing_crlf (slice : List Nat) : List Nat :=
  let len := slice.length
  let hasLf := decide (1 ≤ len) && (slice.getD (len - 1) 0 == LF)
  let hasCrlf := hasLf && decide (2 ≤ len) && (slice.getD (len - 2) 0 == CR)
  slice.take (len - ((if hasLf then 1 else 0) + (if hasCrlf then 1 else 0)))

/-- Modelled from the spec: `utils.rs::trim_trailing_cr` is called by
`core.rs::read_record` ("CRLF preceding `\n` is trimmed from the last field by
dropping a trailing CR") and by `line_buffer.rs`, but its definition is not
part of the given sources.  It drops a single trailing CR byte if present. -/
def trim_trailing_cr (slice : List Nat) : List Nat :=
  if slice.getLast? = some CR then slice.dropLast else slice

/-- `utils.rs::trim_bom`: number of bytes occupied by a leading UTF-8 BOM. -/
def trim_bom (slice : List Nat) : Nat :=
  if slice.take 3 = [0xef, 0xbb, 0xbf] then 3 else 0

/-- `utils.rs::unquoted`: strip one matching leading and trailing quote byte,
if both are present. -/
def unquoted (cell : List Nat) (quote : Nat) : Option (List Nat) :=
  let len := cell.length
  if 2 ≤ len ∧ cell.getD 0 0 = quote ∧ cell.getD (len - 1) 0 = quote then
    some ((cell.drop 1).take (len - 2))
  else
    none

/-- The byte content produced by the `while` loop of `utils.rs::unescape` /
`utils.rs::unescape_to`: every doubled `quote` is collapsed into a single
`quote`; a `quote` not followed by another `quote` stops the unescaping and
the remainder is emitted as-is.  The loop over a cursor `pos` into `cell` is
rendered as recursion over the suffix of the cell. -/
def unescapeBytes (cell : List Nat) (quote : Nat) : List Nat :=
  match h : memchr quote cell with
  | none => cell
  | some o =>
    match h2 : cell.drop (o + 1) with
    | [] => cell.take (o + 1)
    | b :: rest =>
      if b = quote then
        cell.take (o + 1) ++ unescapeBytes rest quote
      else
        cell.take (o + 1) ++ (b :: rest)
termination_by cell.length
decreasing_by
  have hlen : o < cell.length := by
    by_contra hge
    have : cell.drop (o + 1) = [] := by
      apply List.drop_eq_nil_of_le
      omega
    rw [h2] at this
    exact absurd this (by simp)
  have : (cell.drop (o + 1)).length = cell.length - (o + 1) := by
    simp
  rw [h2] at this
  simp at this
  omega

/-- `utils.rs::unescape`: returns the unescaped bytes together with an
ownership flag — `true` models `Cow::Owned` (the scratch vector was used,
i.e. at least one `quote` byte was found), `false` models `Cow::Borrowed`. -/
def unescape (cell : List Nat) (quote : Nat) : List Nat × Bool :=
  match memchr quote cell with
  | none => (cell, false)
  | some _ => (unescapeBytes cell quote, true)

/-- `utils.rs::unescape_to`: append the unescaped bytes to a caller-provided
output vector. -/
def unescape_to (cell : List Nat) (quote : Nat) (out : List Nat) : List Nat :=
  out ++ unescapeBytes cell quote

/-- The bytes emitted between the enclosing quotes by
`writer.rs::Writer::write_quoted_cell`: each embedded `quote` is doubled.
Both the `cell.len() < 8` branch (linear position scan) and the `memchr`
branch of the source perform the same first-occurrence scan, so one
definition covers both. -/
def writeQuotedBody (cell : List Nat) (quote : Nat) : List Nat :=
  match h : memchr quote cell with
  | none => cell
  | some o => cell.take (o + 1) ++ [quote] ++ writeQuotedBody (cell.drop (o + 1)) quote
termination_by cell.length
decreasing_by
  have hlen : o < cell.length := by
    rcases List.findIdx?_eq_some_iff_findIdx_eq.mp (by simpa [memchr] using h) with ⟨hlt, _⟩
    exact hlt
  simp
  omega

/-- `writer.rs::Writer::write_quoted_cell`: an opening quote, the escaped
body, and a closing quote. -/
def write_quoted_cell (cell : List Nat) (quote : Nat) : List Nat :=
  [quote] ++ writeQuotedBody cell quote ++ [quote]

/-! ## The amortized three-needle searcher (`searcher.rs`, SSE2 path)

The iterator works on raw pointers `start ≤ current ≤ end` into the haystack;
we model `current` as an offset from `start` and the haystack as a list.  The
SIMD intrinsics (`_mm_cmpeq_epi8` ∘ `_mm_or_si128` ∘ `_mm_movemask_epi8`) set
bit `j` of the 16-bit move mask exactly when byte `j` of the loaded chunk
equals one of the three needles; `maskBits` below is that semantics.
`u32::trailing_zeros` becomes `tz`, and `mask & (mask - 1)` becomes
`clearLsb`. -/

/-- Does byte `b` equal one of the three needles? -/
def byteMatches (n1 n2 n3 b : Nat) : Bool :=
  b == n1 || b == n2 || b == n3

/-- Does the haystack byte at offset `i` match one of the needles?  (Only
consulted for in-range offsets.) -/
def isMatchAt (hay : List Nat) (n1 n2 n3 i : Nat) : Bool :=
  byteMatches n1 n2 n3 (hay.getD i 0)

/-- `u32::trailing_zeros` (the searcher never calls it on `0`). -/
def tz (m : Nat) : Nat :=
  if m % 2 = 1 ∨ m = 0 then 0 else tz (m / 2) + 1
termination_by m
decreasing_by
  rename_i h
  push_neg at h
  exact Nat.div_lt_self (Nat.pos_of_ne_zero h.2) (by omega)

/-- `mask & (mask - 1)`: clear the least significant set bit. -/
def clearLsb (m : Nat) : Nat :=
  m &&& (m - 1)

/-- The move mask of `k` lanes for the per-lane predicate `f`: bit `j` is set
iff `f j` holds, for `j < k`. -/
def maskBits (f : Nat → Bool) : Nat → Nat
  | 0 => 0
  | k + 1 => (if f 0 then 1 else 0) + 2 * maskBits (fun j => f (j + 1)) k

/-- The move mask extracted from the 16-byte chunk loaded at offset `c`:
`movemask(cmpeq(chunk, v1) | cmpeq(chunk, v2) | cmpeq(chunk, v3))`. -/
def maskOf (hay : List Nat) (n1 n2 n3 c : Nat) : Nat :=
  maskBits (fun j => isMatchAt hay n1 n2 n3 (c + j)) 16

/-- The mutable fields of `SSE2Indices` (`start`/`end` are determined by the
haystack): `current` as an offset from `start`, and the cached move mask. -/
structure SSE2Indices where
  current : Nat
  mask : Nat
deriving DecidableEq

/-- The width of an SSE2 vector, `SSE2_STEP`. -/
def SSE2_STEP : Nat := 16

/-- The final scalar loop of `SSE2Indices::next` ("Processing remaining bytes
linearly").  `smask` is the (unmodified) `self.mask` stored back on a hit. -/
def scalarLoop (hay : List Nat) (n1 n2 n3 smask cur : Nat) : Option (Nat × SSE2Indices) :=
  if cur < hay.length then
    if isMatchAt hay n1 n2 n3 cur then some (cur, ⟨cur + 1, smask⟩)
    else scalarLoop hay n1 n2 n3 smask (cur + 1)
  else none
termination_by hay.length - cur

/-- The "main loop of unaligned loads" of `SSE2Indices::next`: load 16-byte
chunks while `current <= vectorized_end`; on a non-zero move mask, re-enter
the mask-processing branch (which emits `current - 16 + trailing_zeros(mask)`
and stores the cleared mask); otherwise fall through to the scalar loop. -/
def vectorLoop (hay : List Nat) (n1 n2 n3 smask cur : Nat) : Option (Nat × SSE2Indices) :=
  if cur + SSE2_STEP ≤ hay.length then
    let m := maskOf hay n1 n2 n3 cur
    if m ≠ 0 then
      some ((cur + SSE2_STEP) - SSE2_STEP + tz m, ⟨cur + SSE2_STEP, clearLsb m⟩)
    else vectorLoop hay n1 n2 n3 smask (cur + SSE2_STEP)
  else scalarLoop hay n1 n2 n3 smask cur
termination_by hay.length + SSE2_STEP - cur
decreasing_by
  simp [SSE2_STEP] at *
  omega

/-- `SSE2Indices::next`: returns the next offset (and the successor iterator
state), or `none` when exhausted.  When the result is `none`, the Rust method
leaves `self.current` and `self.mask` untouched. -/
def sse2Next (hay : List Nat) (n1 n2 n3 : Nat) (s : SSE2Indices) : Option (Nat × SSE2Indices) :=
  if hay.length = 0 then none
  else if s.mask ≠ 0 then
    some (s.current - SSE2_STEP + tz s.mask, ⟨s.current, clearLsb s.mask⟩)
  else vectorLoop hay n1 n2 n3 s.mask s.current

/-- One observable step of the iterator, tracking the state mutation: on a
hit the stored state advances, on `None` the state is left untouched. -/
def sse2Step (hay : List Nat) (n1 n2 n3 : Nat) (s : SSE2Indices) : Option Nat × SSE2Indices :=
  match sse2Next hay n1 n2 n3 s with
  | none => (none, s)
  | some (o, s') => (some o, s')

/-- Drain the iterator from state `s`, collecting emitted offsets. -/
def sse2EmitGo (hay : List Nat) (n1 n2 n3 : Nat) : Nat → SSE2Indices → List Nat
  | 0, _ => []
  | fuel + 1, s =>
    match sse2Next hay n1 n2 n3 s with
    | none => []
    | some (o, s') => o :: sse2EmitGo hay n1 n2 n3 fuel s'

/-- `Searcher::search(haystack)` (on x86_64 the `SSE2Searcher` is used),
collected into the full list of offsets the lazy iterator yields.  At most
one offset is emitted per haystack byte, so `hay.length + 1` calls always
drain the iterator. -/
def searcherSearch (hay : List Nat) (n1 n2 n3 : Nat) : List Nat :=
  sse2EmitGo hay n1 n2 n3 (hay.length + 1) ⟨0, 0⟩

/-- The specification of the searcher: all offsets whose byte matches one of
the needles, in increasing order. -/
def searchSpec (hay : List Nat) (n1 n2 n3 : Nat) : List Nat :=
  (List.range hay.length).filter (isMatchAt hay n1 n2 n3)

/-- The loop invariant of the SSE2 iterator used to prove `searcher_search_exact`:
either the cached mask is zero and every offset in `[w, current)` has already
been checked and found not to match, or the cached mask is the non-zero move
mask of the chunk `[current - 16, current)` restricted to offsets `≥ w`. -/
def IterCoh (hay : List Nat) (n1 n2 n3 w : Nat) (s : SSE2Indices) : Prop :=
  (s.mask = 0 ∧ w ≤ s.current ∧ s.current ≤ hay.length ∧
    ∀ i, w ≤ i → i < s.current → isMatchAt hay n1 n2 n3 i = false)
  ∨ (s.mask ≠ 0 ∧ s.mask < 2 ^ 16 ∧ SSE2_STEP ≤ s.current ∧ s.current ≤ hay.length ∧
      s.current ≤ w + SSE2_STEP ∧
      ∀ j, Nat.testBit s.mask j =
        (decide (j < SSE2_STEP) && decide (w ≤ s.current - SSE2_STEP + j) &&
          isMatchAt hay n1 n2 n3 (s.current - SSE2_STEP + j)))

/-! ## The record data model (`records.rs`) -/

/-- `records.rs::ZeroCopyByteRecord`: a borrowed window, absolute separator
offsets within it, and the quote byte. -/
structure ZeroCopyByteRecord where
  slice : List Nat
  seps : List Nat
  quote : Nat
deriving DecidableEq

/-- `ZeroCopyByteRecord::new`: the window is trimmed of its trailing
CR/LF. -/
def ZeroCopyByteRecord.new (slice seps : List Nat) (quote : Nat) : ZeroCopyByteRecord :=
  ⟨trim_trailing_crlf slice, seps, quote⟩

/-- `ZeroCopyByteRecord::len`: number of fields. -/
def ZeroCopyByteRecord.numFields (r : ZeroCopyByteRecord) : Nat :=
  r.seps.length + 1

/-- `ZeroCopyByteRecord::to_parts`: `(seps, slice)`. -/
def ZeroCopyByteRecord.to_parts (r : ZeroCopyByteRecord) : List Nat × List Nat :=
  (r.seps, r.slice)

/-- `ZeroCopyByteRecord::get`: the raw bytes of field `index` (quotes and
escapes untouched). -/
def ZeroCopyByteRecord.get (r : ZeroCopyByteRecord) (index : Nat) : Option (List Nat) :=
  let len := r.seps.length
  if index > len then none
  else
    let start := if index = 0 then 0 else r.seps.getD (index - 1) 0 + 1
    let stop := if index = len then r.slice.length else r.seps.getD index 0
    some (sliceRange r.slice start stop)

/-- `ZeroCopyByteRecord::unquote`: strip surrounding quotes if present. -/
def ZeroCopyByteRecord.unquote (r : ZeroCopyByteRecord) (index : Nat) : Option (List Nat) :=
  (r.get index).map (fun cell => (unquoted cell r.quote).getD cell)

/-- `ZeroCopyByteRecord::unescape`: note that the source applies `unquoted`
to the result of `self.unquote(index)` (which has already stripped one pair
of surrounding quotes).  The `Bool` is the `Cow` ownership flag (`true` =
`Owned`). -/
def ZeroCopyByteRecord.unescape (r : ZeroCopyByteRecord) (index : Nat) : Option (List Nat × Bool) :=
  (r.unquote index).map (fun cell =>
    match unquoted cell r.quote with
    | some trimmed => SimdCsv.unescape trimmed r.quote
    | none => (cell, false))

/-- The raw cells of the record, in order (`ZeroCopyByteRecord::iter`). -/
def ZeroCopyByteRecord.cells (r : ZeroCopyByteRecord) : List (List Nat) :=
  (List.range r.numFields).map (fun i => (r.get i).getD [])

/-- `records.rs::ByteRecord`: owned data plus `(start, end)` bounds. -/
structure ByteRecord where
  data : List Nat
  bounds : List (Nat × Nat)
deriving DecidableEq

/-- `ByteRecord::new`. -/
def ByteRecord.new : ByteRecord := ⟨[], []⟩

/-- `ByteRecord::len`: number of fields. -/
def ByteRecord.numFields (r : ByteRecord) : Nat :=
  r.bounds.length

/-- `ByteRecord::push_field`. -/
def ByteRecord.push_field (r : ByteRecord) (bytes : List Nat) : ByteRecord :=
  let data := r.data ++ bytes
  let start := match r.bounds.getLast? with
    | none => 0
    | some (_, stop) => stop
  ⟨data, r.bounds ++ [(start, data.length)]⟩

/-- `ByteRecord::get`. -/
def ByteRecord.get (r : ByteRecord) (index : Nat) : Option (List Nat) :=
  (r.bounds.get? index).map (fun p => sliceRange r.data p.1 p.2)

/-- The field sequence of an owned record (`ByteRecord::iter`). -/
def ByteRecord.fields (r : ByteRecord) : List (List Nat) :=
  r.bounds.map (fun p => sliceRange r.data p.1 p.2)

/-- `ZeroCopyByteRecord::read_byte_record` /
`ZeroCopyByteRecord::to_byte_record`: unquote + unescape every cell into an
owned record. -/
def ZeroCopyByteRecord.to_byte_record (r : ZeroCopyByteRecord) : ByteRecord :=
  r.cells.foldl
    (fun acc cell =>
      match unquoted cell r.quote with
      | some trimmed =>
        let data := unescape_to trimmed r.quote acc.data
        let start := match acc.bounds.getLast? with
          | none => 0
          | some (_, stop) => stop
        ⟨data, acc.bounds ++ [(start, data.length)]⟩
      | none => acc.push_field cell)
    ByteRecord.new

/-- `records.rs::ByteRecordBuilder`: a record under construction plus the
copy cursor `start`. -/
structure ByteRecordBuilder where
  record : ByteRecord
  start : Nat
deriving DecidableEq

/-- `ByteRecordBuilder::wrap`. -/
def ByteRecordBuilder.wrap (r : ByteRecord) : ByteRecordBuilder :=
  ⟨r, 0⟩

/-- `ByteRecordBuilder::extend_from_slice`. -/
def ByteRecordBuilder.extend_from_slice (b : ByteRecordBuilder) (slice : List Nat) : ByteRecordBuilder :=
  { b with record := { b.record with data := b.record.data ++ slice } }

/-- `ByteRecordBuilder::push_byte`. -/
def ByteRecordBuilder.push_byte (b : ByteRecordBuilder) (byte : Nat) : ByteRecordBuilder :=
  { b with record := { b.record with data := b.record.data ++ [byte] } }

/-- `ByteRecordBuilder::finalize_field`. -/
def ByteRecordBuilder.finalize_field (b : ByteRecordBuilder) : ByteRecordBuilder :=
  let start := b.start
  let start' := b.record.data.length
  ⟨⟨b.record.data, b.record.bounds ++ [(start, start')]⟩, start'⟩

/-- `ByteRecordBuilder::finalize_record`: pop one trailing CR, then finalize
the last field.  (Defined in `records.rs` but never called by
`core.rs::read_record`.) -/
def ByteRecordBuilder.finalize_record (b : ByteRecordBuilder) : ByteRecordBuilder :=
  let b :=
    if b.record.data.getLast? = some CR then
      { b with record := { b.record with data := b.record.data.dropLast } }
    else b
  b.finalize_field

/-- `ByteRecordBuilder::finalize_field_preemptively`. -/
def ByteRecordBuilder.finalize_field_preemptively (b : ByteRecordBuilder) (offset : Nat) : ByteRecordBuilder :=
  let start := b.start
  let start' := b.record.data.length + offset
  ⟨⟨b.record.data, b.record.bounds ++ [(start, start')]⟩, start' + 1⟩

/-- `ByteRecordBuilder::bump`. -/
def ByteRecordBuilder.bump (b : ByteRecordBuilder) : ByteRecordBuilder :=
  { b with
    start := b.start +
      (if ((b.record.bounds.getLast?.map Prod.fst).getD 0 ≠ b.start) then 1 else 0) }

/-! ## The CSV state machine (`core.rs::CoreReader`)

The three entry points drive the same three-state machine.  The
`self.searcher.search(&input[pos..])` iteration is modelled by the list
`structuralIndices` of offsets of structural bytes in the suffix — the
theorem about `searcherSearch` below proves that the SSE2 iterator yields
exactly this list.  Each `while pos < input.len()` loop strictly increases
`pos`, so the fuel `input.length + 1` handed over by the entry points always
suffices; the fuel-exhaustion branch mirrors the loop break. -/

/-- `core.rs::ReadResult`. -/
inductive ReadResult where
  | InputEmpty
  | Cr
  | Lf
  | Record
  | End
deriving DecidableEq

/-- `core.rs::ReadState`. -/
inductive ReadState where
  | Unquoted
  | Quoted
  | Quote
deriving DecidableEq

/-- `core.rs::CoreReader` (the owned `Searcher` is determined by `delimiter`
and `quote`). -/
structure CoreReader where
  delimiter : Nat
  quote : Nat
  state : ReadState
  record_was_read : Bool
deriving DecidableEq

/-- `CoreReader::new`: `record_was_read` must be true at the beginning to
avoid counting one record for empty input. -/
def CoreReader.new (delimiter quote : Nat) : CoreReader :=
  ⟨delimiter, quote, .Unquoted, true⟩

/-- The offsets yielded by `Searcher::new(delimiter, b'\n', quote)` on a
haystack (proved equal to the SSE2 iterator's emissions below). -/
def structuralIndices (d q : Nat) (hay : List Nat) : List Nat :=
  searchSpec hay d LF q

/-- The `while` loop of `CoreReader::split_record`.  Returns
`(result, bytes_consumed, state, record_was_read)`. -/
def splitLoop (d q : Nat) (input : List Nat) :
    ReadState → Nat → Nat → ReadResult × Nat × ReadState × Bool
  | st, _, 0 => (.InputEmpty, input.length, st, false)
  | st, pos, fuel + 1 =>
    if pos < input.length then
      match st with
      | .Unquoted =>
        if input.getD pos 0 = q then
          splitLoop d q input .Quoted (pos + 1) fuel
        else
          match memchr2 LF q (input.drop pos) with
          | some offset =>
            let pos := pos + offset
            let byte := input.getD pos 0
            let pos := pos + 1
            if byte = LF then (.Record, pos, .Unquoted, true)
            else splitLoop d q input .Quoted pos fuel
          | none => (.InputEmpty, input.length, .Unquoted, false)
      | .Quoted =>
        match memchr q (input.drop pos) with
        | some offset => splitLoop d q input .Quote (pos + offset + 1) fuel
        | none => (.InputEmpty, input.length, .Quoted, false)
      | .Quote =>
        let byte := input.getD pos 0
        let pos := pos + 1
        if byte = q then splitLoop d q input .Quoted pos fuel
        else if byte = LF then (.Record, pos, .Unquoted, true)
        else splitLoop d q input .Unquoted pos fuel
    else (.InputEmpty, input.length, st, false)

/-- `CoreReader::split_record`. -/
def CoreReader.split_record (r : CoreReader) (input : List Nat) :
    ReadResult × Nat × CoreReader :=
  if input.isEmpty then
    if ¬r.record_was_read then (.Record, 0, { r with record_was_read := true })
    else (.End, 0, r)
  else if r.record_was_read ∧ input.getD 0 0 = LF then (.Lf, 1, r)
  else if r.record_was_read ∧ input.getD 0 0 = CR then (.Cr, 1, r)
  else
    let out := splitLoop r.delimiter r.quote input r.state 0 (input.length + 1)
    (out.1, out.2.1, { r with state := out.2.2.1, record_was_read := out.2.2.2 })

/-- Outcome of the `for offset in self.searcher.search(&input[pos..])` loop
inside the `Unquoted` arm of `split_record_and_find_separators`: either a
whole record was recognised (with the absolute number of consumed bytes), or
the loop fell through to the `if last_offset > 0` check with a possibly
updated parse state. -/
inductive SepsOutcome where
  | record : Nat → List Nat → SepsOutcome
  | cont : ReadState → Nat → List Nat → SepsOutcome

/-- The searcher loop of the `Unquoted` arm of
`split_record_and_find_separators`; `offs` are the searcher offsets relative
to `pos`, the second argument is `last_offset`. -/
def sepsUnqLoop (d : Nat) (input : List Nat) (pos sepsOffset : Nat) :
    List Nat → Nat → List Nat → SepsOutcome
  | [], lastOffset, seps => .cont .Unquoted lastOffset seps
  | offset :: rest, _, seps =>
    let lastOffset := offset + 1
    let byte := input.getD (pos + offset) 0
    if byte = d then
      sepsUnqLoop d input pos sepsOffset rest lastOffset (seps ++ [sepsOffset + pos + offset])
    else if byte = LF then .record (pos + lastOffset) seps
    else .cont .Quoted lastOffset seps

/-- The `while` loop of `CoreReader::split_record_and_find_separators`. -/
def sepsLoop (d q : Nat) (input : List Nat) (sepsOffset : Nat) :
    ReadState → Nat → List Nat → Nat → ReadResult × Nat × ReadState × Bool × List Nat
  | st, _, seps, 0 => (.InputEmpty, input.length, st, false, seps)
  | st, pos, seps, fuel + 1 =>
    if pos < input.length then
      match st with
      | .Unquoted =>
        if input.getD pos 0 = q then
          sepsLoop d q input sepsOffset .Quoted (pos + 1) seps fuel
        else
          match sepsUnqLoop d input pos sepsOffset (structuralIndices d q (input.drop pos)) 0 seps with
          | .record consumed seps => (.Record, consumed, .Unquoted, true, seps)
          | .cont st' lastOffset seps =>
            if 0 < lastOffset then
              sepsLoop d q input sepsOffset st' (pos + lastOffset) seps fuel
            else (.InputEmpty, input.length, st', false, seps)
      | .Quoted =>
        match memchr q (input.drop pos) with
        | some offset => sepsLoop d q input sepsOffset .Quote (pos + offset + 1) seps fuel
        | none => (.InputEmpty, input.length, .Quoted, false, seps)
      | .Quote =>
        let byte := input.getD pos 0
        if byte = q then sepsLoop d q input sepsOffset .Quoted (pos + 1) seps fuel
        else if byte = d then
          sepsLoop d q input sepsOffset .Unquoted (pos + 1) (seps ++ [sepsOffset + pos]) fuel
        else if byte = LF then (.Record, pos + 1, .Unquoted, true, seps)
        else sepsLoop d q input sepsOffset .Unquoted (pos + 1) seps fuel
    else (.InputEmpty, input.length, st, false, seps)

/-- `CoreReader::split_record_and_find_separators`.  Returns
`(result, bytes_consumed, reader, separator offsets)`. -/
def CoreReader.split_record_and_find_separators (r : CoreReader) (input : List Nat)
    (sepsOffset : Nat) (seps : List Nat) : ReadResult × Nat × CoreReader × List Nat :=
  if input.isEmpty then
    if ¬r.record_was_read then (.Record, 0, { r with record_was_read := true }, seps)
    else (.End, 0, r, seps)
  else if r.record_was_read ∧ input.getD 0 0 = LF then (.Lf, 1, r, seps)
  else if r.record_was_read ∧ input.getD 0 0 = CR then (.Cr, 1, r, seps)
  else
    let out := sepsLoop r.delimiter r.quote input sepsOffset r.state 0 seps (input.length + 1)
    (out.1, out.2.1, { r with state := out.2.2.1, record_was_read := out.2.2.2.1 }, out.2.2.2.2)

/-- Outcome of the searcher loop inside the `Unquoted` arm of
`read_record`. -/
inductive UnqOutcome where
  | record : Nat → ByteRecordBuilder → UnqOutcome
  | cont : ReadState → Nat → ByteRecordBuilder → UnqOutcome

/-- The searcher loop of the `Unquoted` arm of `read_record`. -/
def readUnqLoop (d : Nat) (input : List Nat) (pos : Nat) :
    List Nat → Nat → ByteRecordBuilder → UnqOutcome
  | [], lastOffset, b => .cont .Unquoted lastOffset b
  | offset :: rest, _, b =>
    let lastOffset := offset + 1
    let byte := input.getD (pos + offset) 0
    if byte = d then
      readUnqLoop d input pos rest lastOffset (b.finalize_field_preemptively offset)
    else if byte = LF then
      let b := b.extend_from_slice (trim_trailing_cr (sliceRange input pos (pos + offset)))
      .record (pos + lastOffset) b.finalize_field
    else .cont .Quoted lastOffset b.bump

/-- The `while` loop of `CoreReader::read_record`. -/
def readLoop (d q : Nat) (input : List Nat) :
    ReadState → Nat → ByteRecordBuilder → Nat →
    ReadResult × Nat × ReadState × Bool × ByteRecordBuilder
  | st, pos, b, 0 => (.InputEmpty, input.length, st, false, b.extend_from_slice (input.drop pos))
  | st, pos, b, fuel + 1 =>
    if pos < input.length then
      match st with
      | .Unquoted =>
        if input.getD pos 0 = q then
          readLoop d q input .Quoted (pos + 1) b fuel
        else
          match readUnqLoop d input pos (structuralIndices d q (input.drop pos)) 0 b with
          | .record consumed b => (.Record, consumed, .Unquoted, true, b)
          | .cont st' lastOffset b =>
            if 0 < lastOffset then
              readLoop d q input st' (pos + lastOffset)
                (b.extend_from_slice (sliceRange input pos (pos + lastOffset))) fuel
            else (.InputEmpty, input.length, st', false, b.extend_from_slice (input.drop pos))
      | .Quoted =>
        match memchr q (input.drop pos) with
        | some offset =>
          readLoop d q input .Quote (pos + offset + 1)
            (b.extend_from_slice (sliceRange input pos (pos + offset))) fuel
        | none => (.InputEmpty, input.length, .Quoted, false, b.extend_from_slice (input.drop pos))
      | .Quote =>
        let byte := input.getD pos 0
        if byte = q then readLoop d q input .Quoted (pos + 1) (b.push_byte byte) fuel
        else if byte = d then readLoop d q input .Unquoted (pos + 1) b.finalize_field fuel
        else if byte = LF then (.Record, pos + 1, .Unquoted, true, b.finalize_field)
        else readLoop d q input .Unquoted (pos + 1) b fuel
    else (.InputEmpty, input.length, st, false, b.extend_from_slice (input.drop pos))

/-- `CoreReader::read_record`.  Returns
`(result, bytes_consumed, reader, record builder)`. -/
def CoreReader.read_record (r : CoreReader) (input : List Nat) (b : ByteRecordBuilder) :
    ReadResult × Nat × CoreReader × ByteRecordBuilder :=
  if input.isEmpty then
    if ¬r.record_was_read then
      (.Record, 0, { r with record_was_read := true }, b.finalize_field)
    else (.End, 0, r, b)
  else if r.record_was_read ∧ input.getD 0 0 = LF then (.Lf, 1, r, b)
  else if r.record_was_read ∧ input.getD 0 0 = CR then (.Cr, 1, r, b)
  else
    let out := readLoop r.delimiter r.quote input r.state 0 b (input.length + 1)
    (out.1, out.2.1, { r with state := out.2.2.1, record_was_read := out.2.2.2.1 }, out.2.2.2.2)

/-! ## The streaming buffer layer (`buffer.rs`)

`BufReaderWithPosition` wraps a `std::io::BufReader` over an in-memory byte
source: `window` is the unconsumed part of the internal buffer, `rest` the
bytes not yet pulled from the source, `pos` the monotonic position.
`ScratchBuffer` adds the scratch vector and the deferred consume. -/

/-- `buffer.rs::ScratchBuffer` (with its inner `BufReaderWithPosition`
inlined as the fields `window`, `rest`, `capacity`, `pos`). -/
structure ScratchBuffer where
  window : List Nat
  rest : List Nat
  capacity : Nat
  pos : Nat
  scratch : List Nat
  next_consume : Option Nat
deriving DecidableEq

/-- `ScratchBuffer::with_capacity` over an in-memory source. -/
def ScratchBuffer.new (capacity : Nat) (input : List Nat) : ScratchBuffer :=
  ⟨[], input, capacity, 0, [], none⟩

/-- `BufReaderWithPosition::consume`: advance within the buffered window and
bump the monotonic position. -/
def ScratchBuffer.consume (b : ScratchBuffer) (amt : Nat) : ScratchBuffer :=
  { b with window := b.window.drop amt, pos := b.pos + amt }

/-- `BufReaderWithPosition::fill_buf`: if the window is empty, pull up to
`capacity` bytes from the source; return the window. -/
def ScratchBuffer.fill_buf (b : ScratchBuffer) : List Nat × ScratchBuffer :=
  if b.window.isEmpty then
    let w := b.rest.take b.capacity
    (w, { b with window := w, rest := b.rest.drop b.capacity })
  else (b.window, b)

/-- `ScratchBuffer::save`: append the whole window to scratch and consume
it. -/
def ScratchBuffer.save (b : ScratchBuffer) : ScratchBuffer :=
  ({ b with scratch := b.scratch ++ b.window } : ScratchBuffer).consume b.window.length

/-- `ScratchBuffer::reset`: clear scratch and execute a pending deferred
consume. -/
def ScratchBuffer.reset (b : ScratchBuffer) : ScratchBuffer :=
  let b := { b with scratch := ([] : List Nat) }
  match b.next_consume with
  | some amt => ({ b with next_consume := none } : ScratchBuffer).consume amt
  | none => b

/-- `ScratchBuffer::flush`: with an empty scratch, return the first `amt`
window bytes and record a deferred consume (zero-copy path); otherwise spill
the first `amt` window bytes into scratch, consume them, and return the
scratch contents. -/
def ScratchBuffer.flush (b : ScratchBuffer) (amt : Nat) : List Nat × ScratchBuffer :=
  if b.scratch.isEmpty then
    (b.window.take amt, { b with next_consume := some amt })
  else
    let scratch := b.scratch ++ b.window.take amt
    (scratch, ({ b with scratch := scratch } : ScratchBuffer).consume amt)

/-- `ScratchBuffer::position`: the inner position plus any pending deferred
consume. -/
def ScratchBuffer.position (b : ScratchBuffer) : Nat :=
  b.pos + b.next_consume.getD 0

/-- `ScratchBuffer::has_something_saved`. -/
def ScratchBuffer.has_something_saved (b : ScratchBuffer) : Bool :=
  !b.scratch.isEmpty

/-! ## The streaming copying reader driver

Modelled from the spec: §4.6 "`Reader`. Calls `read_record` with a reusable
owned-record builder" — the current revision of `reader.rs` is not part of
the given sources (the file in `src/` holds an older revision whose
`BufferedReader::read_byte_record` drives the loop in exactly this shape:
`fill_buf` → `read_record` → `consume(pos)` → dispatch on the result). -/

/-- The driver loop of the copying reader: accumulate records until `End`. -/
def readerLoop (d q : Nat) :
    Nat → ScratchBuffer → CoreReader → ByteRecordBuilder → List ByteRecord → List ByteRecord
  | 0, _, _, _, acc => acc.reverse
  | fuel + 1, buf, core, b, acc =>
    let fb := buf.fill_buf
    let out := core.read_record fb.1 b
    let buf := fb.2.consume out.2.1
    match out.1 with
    | .End => acc.reverse
    | .Record =>
      readerLoop d q fuel buf out.2.2.1 (ByteRecordBuilder.wrap ByteRecord.new)
        (out.2.2.2.record :: acc)
    | _ => readerLoop d q fuel buf out.2.2.1 out.2.2.2 acc

/-- Stream `input` through the copying reader with the given buffer
capacity and collect every record's field sequence.  Each driver iteration
consumes at least one byte except for the final `Record`/`End` pair, so the
fuel always suffices. -/
def readAllRecords (d q capacity : Nat) (input : List Nat) : List (List (List Nat)) :=
  (readerLoop d q (input.length + 4) (ScratchBuffer.new capacity input)
      (CoreReader.new d q) (ByteRecordBuilder.wrap ByteRecord.new) []).map ByteRecord.fields

/-! ## Errors (`error.rs`) -/

/-- `error.rs::ErrorKind` (the `Io` variant never arises over in-memory
sources and is omitted). -/
inductive ErrorKind where
  /-- `UnequalLengths { expected_len, len, pos }`. -/
  | unequalLengths (expected_len len : Nat) (pos : Option (Nat × Nat))
  /-- `OutOfBounds { pos, start, end }`. -/
  | outOfBounds (pos start stop : Nat)
deriving DecidableEq

/-! ## The writer (`writer.rs`) -/

/-- `writer.rs::Writer`: configuration, the recorded first-record length and
the output buffer (the `BufWriter` and its sink are fused into one byte
list).  The 256-entry `must_quote` table is determined by `delimiter` and
`quote`. -/
structure Writer where
  delimiter : Nat
  quote : Nat
  flexible : Bool
  field_count : Option Nat
  buffer : List Nat
deriving DecidableEq

/-- `WriterBuilder::from_writer` with an empty sink. -/
def Writer.new (delimiter quote : Nat) (flexible : Bool) : Writer :=
  ⟨delimiter, quote, flexible, none, []⟩

/-- The `must_quote` table: CR, LF, the delimiter and the quote byte. -/
def Writer.must_quote (w : Writer) (b : Nat) : Bool :=
  b == CR || b == LF || b == w.delimiter || b == w.quote

/-- `Writer::should_quote`: the 8-byte unrolled scan over the `must_quote`
table (the early exit of the `while !yes` loop does not change the
resulting value). -/
def Writer.should_quote (w : Writer) : List Nat → Bool
  | b0 :: b1 :: b2 :: b3 :: b4 :: b5 :: b6 :: b7 :: rest =>
    (w.must_quote b0 || w.must_quote b1 || w.must_quote b2 || w.must_quote b3 ||
     w.must_quote b4 || w.must_quote b5 || w.must_quote b6 || w.must_quote b7) ||
    w.should_quote rest
  | rest => rest.any w.must_quote

/-- `Writer::check_field_count`: record the first record's length, enforce
it afterwards unless flexible. -/
def Writer.check_field_count (w : Writer) (written : Nat) : Except ErrorKind Writer :=
  if w.flexible then .ok w
  else
    match w.field_count with
    | some expected =>
      if written ≠ expected then .error (.unequalLengths expected written none)
      else .ok w
    | none => .ok { w with field_count := some written }

/-- The bytes emitted for one cell by `Writer::write_record`. -/
def Writer.renderCell (w : Writer) (cell : List Nat) : List Nat :=
  if w.should_quote cell then write_quoted_cell cell w.quote else cell

/-- The bytes `Writer::write_record` emits for a whole record before the
field-count check and the terminating LF: delimiter-joined cells, plus the
`""` marker when the record is a single empty field. -/
def Writer.renderRecordBytes (w : Writer) (cells : List (List Nat)) : List Nat :=
  let joined := List.intercalate [w.delimiter] (cells.map w.renderCell)
  if cells.length = 1 ∧ cells.any List.isEmpty then joined ++ [w.quote, w.quote]
  else joined

/-- `Writer::write_record`: write the cells (quoting where needed), then the
`""` marker for a single empty field, then check the field count — on a
mismatch the error is returned with the record bytes already in the buffer —
and finally the record terminator. -/
def Writer.write_record (w : Writer) (cells : List (List Nat)) :
    Except ErrorKind Unit × Writer :=
  let w1 := { w with buffer := w.buffer ++ w.renderRecordBytes cells }
  match Writer.check_field_count { w1 with } cells.length with
  | .error e => (.error e, w1)
  | .ok w2 => (.ok (), { w2 with buffer := w2.buffer ++ [LF] })

/-! ## The zero-copy reader (`zero_copy_reader.rs`) -/

/-- `zero_copy_reader.rs::ZeroCopyReader`. -/
structure ZeroCopyReader where
  buffer : ScratchBuffer
  inner : CoreReader
  byte_headers : ByteRecord
  raw_headers : List Nat × List Nat
  seps : List Nat
  flexible : Bool
  has_read : Bool
  must_reemit_headers : Bool
  has_headers : Bool
  index : Nat

/-- `ZeroCopyReaderBuilder::from_reader` over an in-memory source. -/
def ZeroCopyReader.fromReader (delimiter quote capacity : Nat) (flexible has_headers : Bool)
    (input : List Nat) : ZeroCopyReader :=
  { buffer := ScratchBuffer.new capacity input
    inner := CoreReader.new delimiter quote
    byte_headers := ByteRecord.new
    raw_headers := ([], [])
    seps := []
    flexible := flexible
    has_read := false
    must_reemit_headers := !has_headers
    has_headers := has_headers
    index := 0 }

/-- `ZeroCopyReader::position`. -/
def ZeroCopyReader.position (r : ZeroCopyReader) : Nat :=
  if r.must_reemit_headers then 0 else r.buffer.position

/-- `ZeroCopyReader::check_field_count`. -/
def ZeroCopyReader.check_field_count (r : ZeroCopyReader) (byte written : Nat) :
    Except ErrorKind Unit :=
  if r.flexible then .ok ()
  else
    let headers_len := r.raw_headers.1.length + 1
    if r.has_read ∧ written ≠ headers_len then
      .error (.unequalLengths headers_len written (some (byte, r.index)))
    else .ok ()

/-- The loop of `ZeroCopyReader::read_byte_record_impl`.  Each iteration
either terminates or consumes at least one buffered byte, so the fuel handed
over by `read_byte_record_impl` suffices. -/
def zcImplLoop (byte : Nat) : Nat → ZeroCopyReader →
    Except ErrorKind (Option ZeroCopyByteRecord × ZeroCopyReader)
  | 0, r => .ok (none, r)
  | fuel + 1, r =>
    let sepsOffset := r.buffer.scratch.length
    let fb := r.buffer.fill_buf
    let out := r.inner.split_record_and_find_separators fb.1 sepsOffset r.seps
    let r := { r with buffer := fb.2, inner := out.2.2.1, seps := out.2.2.2 }
    match out.1 with
    | .End => .ok (none, { r with buffer := r.buffer.consume out.2.1 })
    | .Cr | .Lf => zcImplLoop byte fuel { r with buffer := r.buffer.consume out.2.1 }
    | .InputEmpty => zcImplLoop byte fuel { r with buffer := r.buffer.save }
    | .Record =>
      let r := { r with index := r.index + 1 }
      match r.check_field_count byte (r.seps.length + 1) with
      | .error e => .error e
      | .ok () =>
        let fl := r.buffer.flush out.2.1
        .ok (some (ZeroCopyByteRecord.new fl.1 r.seps r.inner.quote),
          { r with buffer := fl.2 })

/-- `ZeroCopyReader::read_byte_record_impl`. -/
def ZeroCopyReader.read_byte_record_impl (r : ZeroCopyReader) :
    Except ErrorKind (Option ZeroCopyByteRecord × ZeroCopyReader) :=
  let r := { r with buffer := r.buffer.reset, seps := [] }
  let byte := r.position
  zcImplLoop byte (r.buffer.window.length + r.buffer.rest.length + 4) r

/-- `ZeroCopyReader::on_first_read`: strip the BOM, pre-read the first
record as (raw) headers. -/
def ZeroCopyReader.on_first_read (r : ZeroCopyReader) : Except ErrorKind ZeroCopyReader :=
  if r.has_read then .ok r
  else
    let fb := r.buffer.fill_buf
    let bomLen := trim_bom fb.1
    let r := { r with buffer := fb.2.consume bomLen }
    match r.read_byte_record_impl with
    | .error e => .error e
    | .ok (some headers, r1) =>
      .ok { r1 with
        raw_headers := headers.to_parts
        byte_headers := headers.to_byte_record
        has_read := true }
    | .ok (none, r1) =>
      .ok { r1 with must_reemit_headers := false, has_read := true }

/-- `ZeroCopyReader::read_byte_record`. -/
def ZeroCopyReader.read_byte_record (r : ZeroCopyReader) :
    Except ErrorKind (Option ZeroCopyByteRecord × ZeroCopyReader) :=
  match r.on_first_read with
  | .error e => .error e
  | .ok r =>
    if r.must_reemit_headers then
      .ok (some (ZeroCopyByteRecord.new r.raw_headers.2 r.raw_headers.1 r.inner.quote),
        { r with must_reemit_headers := false })
    else r.read_byte_record_impl

/-! ## The seeker (`seeker.rs`) -/

/-- `seeker.rs::cosine`: cosine similarity between the sampled mean field
sizes and a record's field-length profile (IEEE `f64` arithmetic modelled
with `Float`). -/
def cosine (profile : List Float) (other : List Nat) : Float :=
  let folded := (profile.zip (other.map Nat.toFloat)).foldl
    (fun acc ab => (acc.1 + ab.1 * ab.1, acc.2.1 + ab.2 * ab.2, acc.2.2 + ab.1 * ab.2))
    (0.0, 0.0, 0.0)
  folded.2.2 / (folded.1 * folded.2.1).sqrt

/-- `seeker.rs::Seeker`, holding the relevant `SeekerSample` statistics, the
reader configuration of its stored builder (`has_headers(false)` and
`flexible(true)` were set at construction), and the seekable in-memory
stream. -/
structure Seeker where
  stream : List Nat
  delimiter : Nat
  quote : Nat
  buffer_capacity : Nat
  headers : ByteRecord
  max_record_size : Nat
  lookahead_factor : Nat
  fields_mean_sizes : List Float
  first_record_position : Nat
  stream_len : Nat

/-- A fresh reader from the seeker's stored builder over the given bytes:
`has_headers = false`, `flexible = true`. -/
def Seeker.mkReader (sk : Seeker) (bytes : List Nat) : ZeroCopyReader :=
  ZeroCopyReader.fromReader sk.delimiter sk.quote sk.buffer_capacity true false bytes

/-- The loop of `seeker.rs::lookahead`: read records, collecting the field
counts of all records after the first and remembering the second record with
the position at which it started. -/
def lookaheadLoop : Nat → ZeroCopyReader → Nat → Option (Nat × ByteRecord) → List Nat → Nat →
    Except ErrorKind (List Nat × Option (Nat × ByteRecord))
  | 0, _, _, nextRecord, fieldCounts, _ => .ok (fieldCounts, nextRecord)
  | fuel + 1, reader, i, nextRecord, fieldCounts, pos =>
    match reader.read_byte_record with
    | .error e => .error e
    | .ok (none, _) => .ok (fieldCounts, nextRecord)
    | .ok (some record, reader') =>
      let fieldCounts := if 0 < i then fieldCounts ++ [record.numFields] else fieldCounts
      let nextRecord :=
        if 0 < i ∧ i = 1 then some (pos, record.to_byte_record) else nextRecord
      lookaheadLoop fuel reader' (i + 1) nextRecord fieldCounts reader'.position

/-- `seeker.rs::lookahead`: the candidate next record, kept only when at
least two records beyond the first were seen and all but possibly the last
had the expected field count. -/
def lookahead (reader : ZeroCopyReader) (expected_field_count : Nat) :
    Except ErrorKind (Option (Nat × ByteRecord)) :=
  match lookaheadLoop (reader.buffer.window.length + reader.buffer.rest.length + 4)
      reader 0 none [] 0 with
  | .error e => .error e
  | .ok (fieldCounts, nextRecord) =>
    if fieldCounts.length < 2 ∨ fieldCounts.dropLast.any (fun l => l ≠ expected_field_count) then
      .ok none
    else .ok nextRecord

/-- The direct read performed by the `from_pos == first_record_position`
fast path of `find_record_after`: seek to the first record and read it
(`None` models the `unwrap` panic on a record-less stream). -/
def Seeker.directFirstRecord (sk : Seeker) : Option ByteRecord :=
  match (sk.mkReader (sk.stream.drop sk.first_record_position)).read_byte_record with
  | .ok (some record, _) => some record.to_byte_record
  | _ => none

/-- `Seeker::find_record_after`.  The outer `Option` distinguishes a panic
(`None`, from the fast path's `unwrap` on an empty stream) from a returned
value; the `Except` layer carries the `OutOfBounds` error. -/
def Seeker.find_record_after (sk : Seeker) (from_pos : Nat) :
    Option (Except ErrorKind (Option (Nat × ByteRecord))) :=
  if from_pos < sk.first_record_position ∨ sk.stream_len ≤ from_pos then
    some (.error (.outOfBounds from_pos sk.first_record_position sk.stream_len))
  else if from_pos = sk.first_record_position then
    match (sk.mkReader (sk.stream.drop from_pos)).read_byte_record with
    | .error e => some (.error e)
    | .ok (none, _) => none
    | .ok (some record, _) =>
      some (.ok (some (sk.first_record_position, record.to_byte_record)))
  else
    let scratch := (sk.stream.drop from_pos).take (sk.lookahead_factor * sk.max_record_size)
    let expected := sk.headers.numFields
    match lookahead (sk.mkReader scratch) expected with
    | .error e => some (.error e)
    | .ok unq =>
      match lookahead (sk.mkReader (34 :: scratch)) expected with
      | .error e => some (.error e)
      | .ok qtd =>
        match unq, qtd with
        | none, none => some (.ok none)
        | some (pos, record), none => some (.ok (some (from_pos + pos, record)))
        | none, some (pos, record) => some (.ok (some (from_pos + pos - 1, record)))
        | some (upos, urec), some (qpos0, qrec) =>
          let qpos := qpos0 - 1
          if upos = qpos then some (.ok (some (from_pos + upos, urec)))
          else
            let ucos := cosine sk.fields_mean_sizes (urec.fields.map List.length)
            let qcos := cosine sk.fields_mean_sizes (qrec.fields.map List.length)
            if qcos < ucos then some (.ok (some (from_pos + upos, urec)))
            else some (.ok (some (from_pos + qpos, qrec)))

/-- A tiny concrete seeker (stream `"aa,bb\ncc,dd\n"`, first record at 0)
used to exercise `find_record_after` on concrete inputs. -/
def seekerExample : Seeker :=
  { stream := [97, 97, 44, 98, 98, LF, 99, 99, 44, 100, 100, LF]
    delimiter := 44
    quote := 34
    buffer_capacity := 8192
    headers := ByteRecord.mk [97, 97, 98, 98] [(0, 2), (2, 4)]
    max_record_size := 7
    lookahead_factor := 32
    fields_mean_sizes := [2.0, 2.0]
    first_record_position := 0
    stream_len := 12 }

/-! ## Theorems -/

theorem drop_take_sub_length (l : List Nat) (n : Nat) :
    (l.drop n).take (l.length - n) = l.drop n :=
  List.take_of_length_le (by simp)

/-- **C10**: `trim_trailing_crlf` removes at most one terminator from the end
of a slice: exactly one trailing LF, plus one CR only when that CR
immediately precedes the removed LF; a slice with no trailing LF (in
particular one ending in a bare CR) is returned unchanged and no other bytes
are affected.  The trimming is applied to the window whenever a
`ZeroCopyByteRecord` is constructed, so the trimmed CR/LF is never part of
the last field (whose bytes are a suffix of the trimmed window). -/
theorem trim_trailing_crlf_spec (a s seps : List Nat) (q : Nat) :
    trim_trailing_crlf (a ++ [CR, LF]) = a
    ∧ (a.getLast? ≠ some CR → trim_trailing_crlf (a ++ [LF]) = a)
    ∧ (s.getLast? ≠ some LF → trim_trailing_crlf s = s)
    ∧ (ZeroCopyByteRecord.new s seps q).slice = trim_trailing_crlf s
    ∧ (ZeroCopyByteRecord.new s seps q).get seps.length =
        some ((trim_trailing_crlf s).drop
          (if seps.length = 0 then 0 else seps.getD (seps.length - 1) 0 + 1)) := by
  refine ⟨?_, ?_, ?_, rfl, ?_⟩
  · have h1 : (a ++ [CR, LF]).getD (a.length + 2 - 1) 0 = LF := by
      rw [show a.length + 2 - 1 = a.length + 1 by omega,
        List.getD_append_right _ _ _ _ (by omega)]
      simp
    have h2 : (a ++ [CR, LF]).getD (a.length + 2 - 2) 0 = CR := by
      rw [show a.length + 2 - 2 = a.length by omega,
        List.getD_append_right _ _ _ _ (by omega)]
      simp
    have hlen : (a ++ [CR, LF]).length = a.length + 2 := by simp
    simp only [trim_trailing_crlf, hlen, h1, h2]
    have c1 : (decide (1 ≤ a.length + 2) && (LF == LF)) = true := by simp
    have c2 : (decide (1 ≤ a.length + 2) && (LF == LF) && decide (2 ≤ a.length + 2) &&
        (CR == CR)) = true := by simp
    rw [if_pos c1, if_pos c2, show a.length + 2 - (1 + 1) = a.length by omega]
    exact List.take_left a [CR, LF]
  · intro hlast
    cases a using List.reverseRecOn with
    | nil => decide
    | append_singleton b x =>
      have hx : x ≠ CR := by
        intro hcr
        exact hlast (by rw [hcr]; exact List.getLast?_concat b)
      have hlen : ((b ++ [x]) ++ [LF]).length = b.length + 2 := by simp
      have h1 : ((b ++ [x]) ++ [LF]).getD (b.length + 2 - 1) 0 = LF := by
        rw [show b.length + 2 - 1 = (b ++ [x]).length by simp,
          List.getD_append_right _ _ _ _ (by omega)]
        simp
      have h2 : ((b ++ [x]) ++ [LF]).getD (b.length + 2 - 2) 0 = x := by
        rw [List.append_assoc,
          show b.length + 2 - 2 = b.length by omega,
          List.getD_append_right _ _ _ _ (by omega)]
        simp
      simp only [trim_trailing_crlf, hlen, h1, h2]
      have c1 : (decide (1 ≤ b.length + 2) && (LF == LF)) = true := by simp
      have c2 : (decide (1 ≤ b.length + 2) && (LF == LF) && decide (2 ≤ b.length + 2) &&
          (x == CR)) = false := by simp [hx]
      rw [if_pos c1, if_neg (by simp [c2, hx]),
        show b.length + 2 - (1 + 0) = (b ++ [x]).length by simp]
      exact List.take_left (b ++ [x]) [LF]
  · intro hlast
    cases s using List.reverseRecOn with
    | nil => decide
    | append_singleton b x =>
      have hx : x ≠ LF := by
        intro hlf
        exact hlast (by rw [hlf]; exact List.getLast?_concat b)
      have h1 : (b ++ [x]).getD ((b ++ [x]).length - 1) 0 = x := by
        rw [show (b ++ [x]).length - 1 = b.length by simp,
          List.getD_append_right _ _ _ _ (by omega)]
        simp
      simp only [trim_trailing_crlf, h1]
      have c1 : (decide (1 ≤ (b ++ [x]).length) && (x == LF)) = false := by simp [hx]
      rw [if_neg (by simp [c1, hx]), if_neg (by simp [c1, hx])]
      simp
  · simp [ZeroCopyByteRecord.new, ZeroCopyByteRecord.get, sliceRange, drop_take_sub_length]

/-- **C5 (counterexample)**: `unescape(write_quoted(s), Q) = s` fails already
at `s = "a"`, `Q = '"'`: `write_quoted` emits the enclosing quotes, and
`unescape` does not strip them (stripping is `unquoted`'s job), so the
round-trip returns `"a"` with the quotes still present. -/
theorem unescape_write_quoted_counterexample :
    (unescape (write_quoted_cell [97] 34) 34).1 ≠ [97]
    ∧ (unescape (write_quoted_cell [97] 34) 34).1 = [34, 97, 34] := by
  have h : (unescape (write_quoted_cell [97] 34) 34).1 = [34, 97, 34] := by
    simp [unescape, write_quoted_cell, writeQuotedBody, memchr, unescapeBytes, List.findIdx?]
  exact ⟨by simp [h], h⟩

set_option maxRecDepth 4000 in
/-- **C9 (code/doc divergence)**: on the zero-copy record whose single raw
field is `"a""b"` (a doubled quote inside a quoted field), `unescape 0`
returns the bytes `a""b` as a *borrowed* view with the doubled quote still
present — because `ZeroCopyByteRecord::unescape` feeds the already-unquoted
cell to `unquoted` a second time — although `unescape` on those bytes would
produce the owned, properly unescaped `a"b` (which is also what
`to_byte_record` produces for the same field). -/
theorem zc_unescape_not_unescaped_on_doubled_quote :
    (ZeroCopyByteRecord.new [34, 97, 34, 34, 98, 34] [] 34).unescape 0
      = some ([97, 34, 34, 98], false)
    ∧ (unescape [97, 34, 34, 98] 34).1 = [97, 34, 98]
    ∧ (unescape [97, 34, 34, 98] 34).2 = true
    ∧ (ZeroCopyByteRecord.new [34, 97, 34, 34, 98, 34] [] 34).to_byte_record.fields
      = [[97, 34, 98]] := by
  refine ⟨by decide, ?_, by decide, ?_⟩
  · simp [unescape, memchr, unescapeBytes, List.findIdx?]
  · have hu : unescapeBytes [97, 34, 34, 98] 34 = [97, 34, 98] := by
      simp [unescapeBytes, memchr, List.findIdx?]
    have hq2 : unquoted (((ZeroCopyByteRecord.new [34, 97, 34, 34, 98, 34] [] 34).get 0).getD []) 34
        = some [97, 34, 34, 98] := by decide
    simp only [ZeroCopyByteRecord.to_byte_record, ZeroCopyByteRecord.cells,
      ZeroCopyByteRecord.numFields,
      show (ZeroCopyByteRecord.new [34, 97, 34, 34, 98, 34] [] 34).seps.length = 0 from rfl,
      List.range_succ, List.range_zero, List.nil_append,
      List.map_cons, List.map_nil, List.foldl_cons, List.foldl_nil]
    rw [show (ZeroCopyByteRecord.new [34, 97, 34, 34, 98, 34] [] 34).quote = 34 from rfl, hq2]
    simp only [unescape_to, hu]
    decide

/-- **C7 (counterexample)**: the claim quantifies over every `ScratchBuffer`
whose scratch area is empty, but a buffer that already records a deferred
consume (obtained by a previous `flush`, scratch still empty) falsifies the
position clause: after filling a window of 3 bytes and flushing 2, a further
`flush 1` moves `position()` from 2 to 1 instead of to 3. -/
theorem flush_position_counterexample :
    ((((ScratchBuffer.new 3 [97, 98, 99]).fill_buf.2.flush 2).2).scratch = [])
    ∧ ((((ScratchBuffer.new 3 [97, 98, 99]).fill_buf.2.flush 2).2.flush 1).2.position
        ≠ (((ScratchBuffer.new 3 [97, 98, 99]).fill_buf.2.flush 2).2).position + 1) := by
  decide

/-- **C7 (amended)**: for a `ScratchBuffer` with empty scratch *and no
pending deferred consume* (the state in which the flush/reset discipline
permits calling `flush`), `flush n` returns the first `n` bytes of the
window, consumes nothing from the source immediately (window, position and
unread source are unchanged), records a deferred consume of `n` that the
next `reset` executes, and `position()` grows by exactly `n`. -/
theorem flush_zero_copy_contract (b : ScratchBuffer) (n : Nat)
    (hs : b.scratch = []) (hn : b.next_consume = none) (hlen : n ≤ b.window.length) :
    (b.flush n).1 = b.window.take n
    ∧ (b.flush n).2.window = b.window
    ∧ (b.flush n).2.pos = b.pos
    ∧ (b.flush n).2.rest = b.rest
    ∧ (b.flush n).2.next_consume = some n
    ∧ (b.flush n).2.position = b.position + n
    ∧ ((b.flush n).2.reset).pos = b.pos + n
    ∧ ((b.flush n).2.reset).window = b.window.drop n
    ∧ ((b.flush n).2.reset).scratch = []
    ∧ ((b.flush n).2.reset).next_consume = none := by
  simp [ScratchBuffer.flush, ScratchBuffer.reset, ScratchBuffer.consume,
    ScratchBuffer.position, hs, hn]

theorem flush_zero_copy_contract_witness :
    ((((ScratchBuffer.new 4 [97, 98, 99]).fill_buf.2).flush 2).1 = [97, 98])
    ∧ (((ScratchBuffer.new 4 [97, 98, 99]).fill_buf.2).flush 2).2.position
        = ((ScratchBuffer.new 4 [97, 98, 99]).fill_buf.2).position + 2 := by
  have h := flush_zero_copy_contract ((ScratchBuffer.new 4 [97, 98, 99]).fill_buf.2) 2
    (by decide) (by decide) (by decide)
  exact ⟨h.1, h.2.2.2.2.2.1⟩

/-- **C6**: a non-flexible writer records the field count of the first
record; a later `write_record` with a differing count returns
`UnequalLengths` carrying the expected and actual counts, and by then the
offending record's bytes are already in the output buffer (only the
terminating LF is withheld — the failed write is not atomic).  A flexible
writer never returns `UnequalLengths`. -/
theorem writer_field_count_enforcement (w : Writer) (cells : List (List Nat)) :
    (¬w.flexible = true → w.field_count = none →
      (w.write_record cells).1 = .ok ()
      ∧ (w.write_record cells).2.field_count = some cells.length)
    ∧ (∀ expected, ¬w.flexible = true → w.field_count = some expected →
        cells.length ≠ expected →
        (w.write_record cells).1 = .error (.unequalLengths expected cells.length none)
        ∧ (w.write_record cells).2.buffer = w.buffer ++ w.renderRecordBytes cells)
    ∧ (w.flexible = true → ∀ e, (w.write_record cells).1 ≠ .error e) := by
  refine ⟨?_, ?_, ?_⟩
  · intro hflex hfc
    simp [Writer.write_record, Writer.check_field_count, hflex, hfc]
  · intro expected hflex hfc hne
    simp [Writer.write_record, Writer.check_field_count, hflex, hfc, hne]
  · intro hflex e
    simp [Writer.write_record, Writer.check_field_count, hflex]

theorem memchr_cons (q b : Nat) (l : List Nat) :
    memchr q (b :: l) = if b = q then some 0 else (memchr q l).map (· + 1) := by
  simp only [memchr, List.findIdx?_cons, List.findIdx?_succ, Nat.zero_add]
  by_cases hb : b = q <;> simp [hb]

theorem memchr_eq_none_iff (q : Nat) (l : List Nat) :
    memchr q l = none ↔ ∀ b ∈ l, b ≠ q := by
  simp [memchr, List.findIdx?_eq_none_iff]

theorem memchr_some_spec (q : Nat) (l : List Nat) (o : Nat) (h : memchr q l = some o) :
    o < l.length ∧ l.getD o 0 = q ∧ ∀ b ∈ l.take o, b ≠ q := by
  induction l generalizing o with
  | nil => simp [memchr] at h
  | cons b t ih =>
    rw [memchr_cons] at h
    by_cases hb : b = q
    · rw [if_pos hb] at h
      cases h
      simp [hb]
    · rw [if_neg hb] at h
      match ho : memchr q t with
      | none => rw [ho] at h; simp at h
      | some o' =>
        rw [ho] at h
        simp at h
        subst h
        obtain ⟨h1, h2, h3⟩ := ih o' ho
        refine ⟨by simpa using h1, by simpa using h2, ?_⟩
        intro x hx
        rw [List.take_succ_cons, List.mem_cons] at hx
        rcases hx with rfl | hx
        · exact hb
        · exact h3 x hx

theorem memchr_append_of_forall_ne (q : Nat) (u v : List Nat) (hu : ∀ b ∈ u, b ≠ q) :
    memchr q (u ++ v) = (memchr q v).map (· + u.length) := by
  induction u with
  | nil => simp
  | cons b t ih =>
    have hb : b ≠ q := hu b (by simp)
    rw [List.cons_append, memchr_cons, if_neg hb, ih (fun x hx => hu x (by simp [hx]))]
    cases memchr q v <;> simp <;> omega

theorem memchr_cons_self (q : Nat) (l : List Nat) : memchr q (q :: l) = some 0 := by
  rw [memchr_cons, if_pos rfl]

/-- The key round-trip: unescaping the quote-doubled body emitted by
`write_quoted_cell` recovers the original cell bytes. -/
theorem unescapeBytes_writeQuotedBody (q : Nat) (s : List Nat) :
    unescapeBytes (writeQuotedBody s q) q = s := by
  suffices main : ∀ n (s : List Nat), s.length ≤ n → unescapeBytes (writeQuotedBody s q) q = s by
    exact main s.length s le_rfl
  intro n
  induction n with
  | zero =>
    intro s hs
    have hnil : s = [] := List.length_eq_zero.mp (by omega)
    subst hnil
    rw [writeQuotedBody, show memchr q [] = none from rfl, unescapeBytes,
      show memchr q [] = none from rfl]
  | succ n ih =>
  intro s hs
  match hm : memchr q s with
  | none =>
    rw [writeQuotedBody, hm, unescapeBytes, hm]
  | some o =>
    obtain ⟨ho, hq, hfree⟩ := memchr_some_spec q s o hm
    have htake : s.take (o + 1) = s.take o ++ [q] := by
      rw [List.take_succ]
      congr 1
      rw [List.getElem?_eq_getElem ho]
      simp only [Option.toList_some]
      rw [← hq, List.getD_eq_getElem?_getD, List.getElem?_eq_getElem ho]
      simp
    have hlenu : (s.take o).length = o := by
      simp
      omega
    have hlent : (s.take (o + 1)).length = o + 1 := by
      rw [htake, List.length_append, hlenu]
      simp
    set R := writeQuotedBody (s.drop (o + 1)) q with hR
    have hbody : writeQuotedBody s q = s.take (o + 1) ++ [q] ++ R := by
      rw [writeQuotedBody, hm]
    have hT : writeQuotedBody s q = s.take o ++ (q :: q :: R) := by
      rw [hbody, htake]
      simp
    have hmem : memchr q (writeQuotedBody s q) = some o := by
      rw [hT, memchr_append_of_forall_ne q _ _ hfree, memchr_cons_self]
      simp [hlenu]
    have hdrop : (writeQuotedBody s q).drop (o + 1) = q :: R := by
      rw [hbody, List.append_assoc, List.drop_left' hlent, List.singleton_append]
    have htake2 : (writeQuotedBody s q).take (o + 1) = s.take (o + 1) := by
      rw [hbody, List.append_assoc, List.take_left' hlent]
    have hrec : unescapeBytes R q = s.drop (o + 1) := by
      rw [hR]
      exact ih (s.drop (o + 1)) (by simp; omega)
    rw [unescapeBytes, hmem]
    dsimp only
    split
    · rename_i heq
      rw [hdrop] at heq
      cases heq
    · rename_i b rest heq
      rw [hdrop] at heq
      injection heq with hb hrest
      subst hb
      subst hrest
      rw [if_pos rfl, htake2, hrec, List.take_append_drop]

/-- **C5 (amended)**: the claim fails as stated because `unescape` does not
strip the enclosing quotes emitted by `write_quoted`; stripping them first
(`unquoted`, as the read path does) makes the round-trip exact:
`unquoted(write_quoted(s), Q) = some body` and `unescape(body, Q) = s`. -/
theorem unescape_unquoted_write_quoted_roundtrip (s : List Nat) (q : Nat) :
    unquoted (write_quoted_cell s q) q = some (writeQuotedBody s q)
    ∧ (unescape (writeQuotedBody s q) q).1 = s := by
  constructor
  · have hlen : (write_quoted_cell s q).length = (writeQuotedBody s q).length + 2 := by
      simp [write_quoted_cell]
    have h0 : (write_quoted_cell s q).getD 0 0 = q := rfl
    have hlast : (write_quoted_cell s q).getD ((write_quoted_cell s q).length - 1) 0 = q := by
      have : write_quoted_cell s q = (q :: writeQuotedBody s q) ++ [q] := by
        simp [write_quoted_cell]
      rw [this, List.getD_append_right _ _ _ _ (by simp [hlen])]
      have : ((q :: writeQuotedBody s q) ++ [q]).length - 1 - (q :: writeQuotedBody s q).length
          = 0 := by
        simp
      rw [this]
      rfl
    rw [unquoted, if_pos ⟨by omega, h0, hlast⟩]
    congr 1
    have hsplit : (write_quoted_cell s q).drop 1 = writeQuotedBody s q ++ [q] := by
      simp [write_quoted_cell]
    rw [hsplit, hlen, show (writeQuotedBody s q).length + 2 - 2
      = (writeQuotedBody s q).length by omega]
    exact List.take_left _ [q]
  · match hm : memchr q (writeQuotedBody s q) with
    | none =>
      have hs : writeQuotedBody s q = s := by
        rw [writeQuotedBody]
        match hm2 : memchr q s with
        | none => rfl
        | some o =>
          obtain ⟨ho, hq2, _⟩ := memchr_some_spec q s o hm2
          rw [writeQuotedBody, hm2] at hm
          rw [memchr_eq_none_iff] at hm
          exact absurd rfl (hm q (by simp))
      rw [unescape, hm, hs]
    | some o =>
      rw [unescape, hm]
      exact unescapeBytes_writeQuotedBody q s

theorem writer_field_count_enforcement_witness :
    ((Writer.mk 44 34 false (some 2) []).write_record [[97]]).1
      = .error (.unequalLengths 2 1 none)
    ∧ ((Writer.mk 44 34 false (some 2) []).write_record [[97]]).2.buffer = [97]
    ∧ ((Writer.mk 44 34 false none []).write_record [[97], [98]]).2.field_count = some 2 := by
  have h1 := (writer_field_count_enforcement (Writer.mk 44 34 false (some 2) []) [[97]]).2.1
    2 (by decide) rfl (by decide)
  have h2 := (writer_field_count_enforcement (Writer.mk 44 34 false none []) [[97], [98]]).1
    (by decide) rfl
  refine ⟨h1.1, ?_, h2.2⟩
  rw [h1.2]
  decide

theorem splitLoop_record_spec (d q : Nat) (input : List Nat) :
    ∀ fuel st pos n st' rwr, splitLoop d q input st pos fuel = (.Record, n, st', rwr) →
      rwr = true ∧ 0 < n ∧ input.getD (n - 1) 0 = LF := by
  intro fuel
  induction fuel with
  | zero =>
    intro st pos n st' rwr h
    simp [splitLoop] at h
  | succ k ih =>
    intro st pos n st' rwr h
    simp only [splitLoop] at h
    split at h
    · split at h
      · -- Unquoted
        split at h
        · exact ih _ _ _ _ _ h
        · split at h
          · rename_i offset hm
            split at h
            · rename_i hlf
              simp only [Prod.mk.injEq] at h
              obtain ⟨-, hn, -, hr⟩ := h
              subst hn
              subst hr
              exact ⟨rfl, by omega, by simpa using hlf⟩
            · exact ih _ _ _ _ _ h
          · simp at h
      · -- Quoted
        split at h
        · exact ih _ _ _ _ _ h
        · simp at h
      · -- Quote
        split at h
        · exact ih _ _ _ _ _ h
        · split at h
          · rename_i hlf
            simp only [Prod.mk.injEq] at h
            obtain ⟨-, hn, -, hr⟩ := h
            subst hn
            subst hr
            exact ⟨rfl, by omega, by simpa using hlf⟩
          · exact ih _ _ _ _ _ h
    · simp at h

theorem sepsUnqLoop_record_spec (d : Nat) (input : List Nat) (pos sepsOffset : Nat) :
    ∀ offs lastOffset seps n seps',
      sepsUnqLoop d input pos sepsOffset offs lastOffset seps = .record n seps' →
      pos < n ∧ input.getD (n - 1) 0 = LF := by
  intro offs
  induction offs with
  | nil =>
    intro lastOffset seps n seps' h
    simp [sepsUnqLoop] at h
  | cons o rest ih =>
    intro lastOffset seps n seps' h
    simp only [sepsUnqLoop] at h
    split at h
    · exact ih _ _ _ _ h
    · split at h
      · rename_i hlf
        injection h with hn hs
        subst hn
        exact ⟨by omega, by simpa using hlf⟩
      · simp at h

theorem sepsLoop_record_spec (d q : Nat) (input : List Nat) (sepsOffset : Nat) :
    ∀ fuel st pos seps n st' rwr seps',
      sepsLoop d q input sepsOffset st pos seps fuel = (.Record, n, st', rwr, seps') →
      rwr = true ∧ 0 < n ∧ input.getD (n - 1) 0 = LF := by
  intro fuel
  induction fuel with
  | zero =>
    intro st pos seps n st' rwr seps' h
    simp [sepsLoop] at h
  | succ k ih =>
    intro st pos seps n st' rwr seps' h
    simp only [sepsLoop] at h
    split at h
    · split at h
      · -- Unquoted
        split at h
        · exact ih _ _ _ _ _ _ _ h
        · split at h
          · rename_i consumed seps2 heq
            simp only [Prod.mk.injEq] at h
            obtain ⟨-, hn, -, hr, -⟩ := h
            subst hn
            subst hr
            obtain ⟨h1, h2⟩ := sepsUnqLoop_record_spec d input pos sepsOffset _ _ _ _ _ heq
            exact ⟨rfl, by omega, h2⟩
          · split at h
            · exact ih _ _ _ _ _ _ _ h
            · simp at h
      · -- Quoted
        split at h
        · exact ih _ _ _ _ _ _ _ h
        · simp at h
      · -- Quote
        split at h
        · exact ih _ _ _ _ _ _ _ h
        · split at h
          · exact ih _ _ _ _ _ _ _ h
          · split at h
            · rename_i hlf
              simp only [Prod.mk.injEq] at h
              obtain ⟨-, hn, -, hr, -⟩ := h
              subst hn
              subst hr
              exact ⟨rfl, by omega, by simpa using hlf⟩
            · exact ih _ _ _ _ _ _ _ h
    · simp at h

theorem readUnqLoop_record_spec (d : Nat) (input : List Nat) (pos : Nat) :
    ∀ offs lastOffset b n b',
      readUnqLoop d input pos offs lastOffset b = .record n b' →
      pos < n ∧ input.getD (n - 1) 0 = LF := by
  intro offs
  induction offs with
  | nil =>
    intro lastOffset b n b' h
    simp [readUnqLoop] at h
  | cons o rest ih =>
    intro lastOffset b n b' h
    simp only [readUnqLoop] at h
    split at h
    · exact ih _ _ _ _ h
    · split at h
      · rename_i hlf
        injection h with hn hb
        subst hn
        exact ⟨by omega, by simpa using hlf⟩
      · simp at h

theorem readLoop_record_spec (d q : Nat) (input : List Nat) :
    ∀ fuel st pos b n st' rwr b',
      readLoop d q input st pos b fuel = (.Record, n, st', rwr, b') →
      rwr = true ∧ 0 < n ∧ input.getD (n - 1) 0 = LF := by
  intro fuel
  induction fuel with
  | zero =>
    intro st pos b n st' rwr b' h
    simp [readLoop] at h
  | succ k ih =>
    intro st pos b n st' rwr b' h
    simp only [readLoop] at h
    split at h
    · split at h
      · -- Unquoted
        split at h
        · exact ih _ _ _ _ _ _ _ h
        · split at h
          · rename_i consumed b2 heq
            simp only [Prod.mk.injEq] at h
            obtain ⟨-, hn, -, hr, -⟩ := h
            subst hn
            subst hr
            obtain ⟨h1, h2⟩ := readUnqLoop_record_spec d input pos _ _ _ _ _ heq
            exact ⟨rfl, by omega, h2⟩
          · split at h
            · exact ih _ _ _ _ _ _ _ h
            · simp at h
      · -- Quoted
        split at h
        · exact ih _ _ _ _ _ _ _ h
        · simp at h
      · -- Quote
        split at h
        · exact ih _ _ _ _ _ _ _ h
        · split at h
          · exact ih _ _ _ _ _ _ _ h
          · split at h
            · rename_i hlf
              simp only [Prod.mk.injEq] at h
              obtain ⟨-, hn, -, hr, -⟩ := h
              subst hn
              subst hr
              exact ⟨rfl, by omega, by simpa using hlf⟩
            · exact ih _ _ _ _ _ _ _ h
    · simp at h

theorem split_record_record_spec (r : CoreReader) (input : List Nat) :
    (r.split_record input).1 = .Record →
    (r.split_record input).2.2.record_was_read = true
    ∧ (0 < (r.split_record input).2.1 →
        input.getD ((r.split_record input).2.1 - 1) 0 = LF) := by
  rw [CoreReader.split_record]
  split
  · split
    · intro _
      exact ⟨rfl, by intro hn; simp at hn⟩
    · intro h
      simp at h
  · split
    · intro h
      simp at h
    · split
      · intro h
        simp at h
      · rcases hsp : splitLoop r.delimiter r.quote input r.state 0 (input.length + 1)
          with ⟨res, n, st2, rwr2⟩
        dsimp only
        intro h
        have heq := hsp
        rw [h] at heq
        obtain ⟨hr, hn, hlf⟩ := splitLoop_record_spec r.delimiter r.quote input _ _ _ _ _ _ heq
        exact ⟨hr, fun _ => hlf⟩

theorem seps_record_record_spec (r : CoreReader) (input : List Nat)
    (sepsOffset : Nat) (seps : List Nat) :
    (r.split_record_and_find_separators input sepsOffset seps).1 = .Record →
    (r.split_record_and_find_separators input sepsOffset seps).2.2.1.record_was_read = true
    ∧ (0 < (r.split_record_and_find_separators input sepsOffset seps).2.1 →
        input.getD ((r.split_record_and_find_separators input sepsOffset seps).2.1 - 1) 0 = LF) := by
  rw [CoreReader.split_record_and_find_separators]
  split
  · split
    · intro _
      exact ⟨rfl, by intro hn; simp at hn⟩
    · intro h
      simp at h
  · split
    · intro h
      simp at h
    · split
      · intro h
        simp at h
      · rcases hsp : sepsLoop r.delimiter r.quote input sepsOffset r.state 0 seps (input.length + 1)
          with ⟨res, n, st2, rwr2, seps2⟩
        dsimp only
        intro h
        have heq := hsp
        rw [h] at heq
        obtain ⟨hr, hn, hlf⟩ :=
          sepsLoop_record_spec r.delimiter r.quote input sepsOffset _ _ _ _ _ _ _ _ heq
        exact ⟨hr, fun _ => hlf⟩

theorem read_record_record_spec (r : CoreReader) (input : List Nat) (b : ByteRecordBuilder) :
    (r.read_record input b).1 = .Record →
    (r.read_record input b).2.2.1.record_was_read = true
    ∧ (0 < (r.read_record input b).2.1 →
        input.getD ((r.read_record input b).2.1 - 1) 0 = LF) := by
  rw [CoreReader.read_record]
  split
  · split
    · intro _
      exact ⟨rfl, by intro hn; simp at hn⟩
    · intro h
      simp at h
  · split
    · intro h
      simp at h
    · split
      · intro h
        simp at h
      · rcases hsp : readLoop r.delimiter r.quote input r.state 0 b (input.length + 1)
          with ⟨res, n, st2, rwr2, b2⟩
        dsimp only
        intro h
        have heq := hsp
        rw [h] at heq
        obtain ⟨hr, hn, hlf⟩ := readLoop_record_spec r.delimiter r.quote input _ _ _ _ _ _ _ _ heq
        exact ⟨hr, fun _ => hlf⟩

/-- **C3**: called on empty input, each of the three `CoreReader` entry
points flushes the pending last record — `(Record, 0)` (for `read_record`
also finalizing the pending field) — when `record_was_read` is false, and
returns `(End, 0)` otherwise; `record_was_read` is true at initialisation
and immediately after every `Record` result, so an entirely empty input
yields zero records. -/
theorem core_empty_input_behaviour (d q : Nat) (r : CoreReader) (b : ByteRecordBuilder)
    (sepsOffset : Nat) (seps : List Nat) :
    (CoreReader.new d q).record_was_read = true
    ∧ (r.record_was_read = false →
        r.split_record [] = (.Record, 0, { r with record_was_read := true }))
    ∧ (r.record_was_read = true → r.split_record [] = (.End, 0, r))
    ∧ (r.record_was_read = false →
        r.split_record_and_find_separators [] sepsOffset seps
          = (.Record, 0, { r with record_was_read := true }, seps))
    ∧ (r.record_was_read = true →
        r.split_record_and_find_separators [] sepsOffset seps = (.End, 0, r, seps))
    ∧ (r.record_was_read = false →
        r.read_record [] b = (.Record, 0, { r with record_was_read := true }, b.finalize_field))
    ∧ (r.record_was_read = true → r.read_record [] b = (.End, 0, r, b))
    ∧ (∀ input, (r.split_record input).1 = .Record →
        (r.split_record input).2.2.record_was_read = true)
    ∧ (∀ input, (r.split_record_and_find_separators input sepsOffset seps).1 = .Record →
        (r.split_record_and_find_separators input sepsOffset seps).2.2.1.record_was_read = true)
    ∧ (∀ input, (r.read_record input b).1 = .Record →
        (r.read_record input b).2.2.1.record_was_read = true) := by
  refine ⟨rfl, ?_, ?_, ?_, ?_, ?_, ?_, ?_, ?_, ?_⟩
  · intro hr
    simp [CoreReader.split_record, hr]
  · intro hr
    simp [CoreReader.split_record, hr]
  · intro hr
    simp [CoreReader.split_record_and_find_separators, hr]
  · intro hr
    simp [CoreReader.split_record_and_find_separators, hr]
  · intro hr
    simp [CoreReader.read_record, hr]
  · intro hr
    simp [CoreReader.read_record, hr]
  · exact fun input h => (split_record_record_spec r input h).1
  · exact fun input h => (seps_record_record_spec r input sepsOffset seps h).1
  · exact fun input h => (read_record_record_spec r input b h).1

theorem core_empty_input_behaviour_witness :
    (CoreReader.mk 44 34 .Unquoted false).split_record []
      = (.Record, 0, CoreReader.mk 44 34 .Unquoted true)
    ∧ (CoreReader.new 44 34).split_record [] = (.End, 0, CoreReader.new 44 34) := by
  have h := core_empty_input_behaviour 44 34 (CoreReader.mk 44 34 .Unquoted false)
    (ByteRecordBuilder.wrap ByteRecord.new) 0 []
  have h2 := core_empty_input_behaviour 44 34 (CoreReader.new 44 34)
    (ByteRecordBuilder.wrap ByteRecord.new) 0 []
  exact ⟨h.2.1 rfl, h2.2.2.1 rfl⟩

/-- **C4**: whenever one of the three `CoreReader` entry points returns
`(Record, n)` with `n > 0`, the last consumed byte `input[n-1]` is LF — a
bare CR never terminates a record (only `\n` and `\r\n` do). -/
theorem core_record_terminator_lf (r : CoreReader) (input : List Nat) (b : ByteRecordBuilder)
    (sepsOffset : Nat) (seps : List Nat) :
    ((r.split_record input).1 = .Record → 0 < (r.split_record input).2.1 →
      input.getD ((r.split_record input).2.1 - 1) 0 = LF)
    ∧ ((r.split_record_and_find_separators input sepsOffset seps).1 = .Record →
        0 < (r.split_record_and_find_separators input sepsOffset seps).2.1 →
        input.getD ((r.split_record_and_find_separators input sepsOffset seps).2.1 - 1) 0 = LF)
    ∧ ((r.read_record input b).1 = .Record → 0 < (r.read_record input b).2.1 →
        input.getD ((r.read_record input b).2.1 - 1) 0 = LF) :=
  ⟨fun h => (split_record_record_spec r input h).2,
   fun h => (seps_record_record_spec r input sepsOffset seps h).2,
   fun h => (read_record_record_spec r input b h).2⟩

theorem core_record_terminator_lf_witness :
    [97, 13, 97, 10].getD
        (((CoreReader.new 44 34).split_record [97, 13, 97, 10]).2.1 - 1) 0 = LF
    ∧ [97, 13, 97, 10].getD
        (((CoreReader.new 44 34).split_record_and_find_separators [97, 13, 97, 10] 0 []).2.1 - 1) 0
        = LF
    ∧ [97, 13, 97, 10].getD
        (((CoreReader.new 44 34).read_record [97, 13, 97, 10]
          (ByteRecordBuilder.wrap ByteRecord.new)).2.1 - 1) 0 = LF := by
  have h := core_record_terminator_lf (CoreReader.new 44 34) [97, 13, 97, 10]
    (ByteRecordBuilder.wrap ByteRecord.new) 0 []
  exact ⟨h.1 (by decide) (by decide), h.2.1 (by decide) (by decide),
    h.2.2 (by decide) (by decide)⟩


/-- **C2 (divergence at a CRLF spanning a buffer boundary)**: streaming the
input `"a\r\n"` through the copying reader yields the single field `"a\r"`
with buffer capacity 2 (the CR sits at the end of the first window, where
`read_record` has already copied it into the builder before seeing the LF,
and `trim_trailing_cr` is only ever applied within the current chunk), but
the single field `"a"` with the default capacity 8192 — the field count and
record count agree, the field bytes do not.  `ByteRecordBuilder::
finalize_record`, which pops exactly this cross-chunk CR, exists in
`records.rs` but is never called by `core.rs::read_record`. -/
theorem read_record_crlf_buffer_boundary :
    readAllRecords 44 34 2 [97, 13, 10] = [[[97, 13]]]
    ∧ readAllRecords 44 34 8192 [97, 13, 10] = [[[97]]]
    ∧ readAllRecords 44 34 2 [97, 13, 10] ≠ readAllRecords 44 34 8192 [97, 13, 10] := by
  decide


theorem trim_trailing_crlf_spec_witness :
    trim_trailing_crlf [97, 13, 10] = [97]
    ∧ trim_trailing_crlf [97, 10] = [97]
    ∧ trim_trailing_crlf [97, 13] = [97, 13] := by
  have h := trim_trailing_crlf_spec [97] [97, 13] [] 34
  exact ⟨h.1, h.2.1 (by decide), h.2.2.1 (by decide)⟩

theorem zcImplLoop_flexible_ok (byte : Nat) :
    ∀ fuel (r : ZeroCopyReader), r.flexible = true →
      ∃ v, zcImplLoop byte fuel r = .ok v ∧ v.2.flexible = true := by
  intro fuel
  induction fuel with
  | zero =>
    intro r hf
    exact ⟨(none, r), rfl, hf⟩
  | succ k ih =>
    intro r hf
    simp only [zcImplLoop]
    split
    · exact ⟨_, rfl, by simpa using hf⟩
    · exact ih _ (by simpa using hf)
    · exact ih _ (by simpa using hf)
    · exact ih _ (by simpa using hf)
    · rename_i heq
      rw [ZeroCopyReader.check_field_count]
      rw [if_pos (by simpa using hf)]
      exact ⟨_, rfl, by simpa using hf⟩

theorem read_byte_record_impl_flexible_ok (r : ZeroCopyReader) (hf : r.flexible = true) :
    ∃ v, r.read_byte_record_impl = .ok v ∧ v.2.flexible = true := by
  rw [ZeroCopyReader.read_byte_record_impl]
  exact zcImplLoop_flexible_ok _ _ _ (by simpa using hf)

theorem on_first_read_flexible_ok (r : ZeroCopyReader) (hf : r.flexible = true) :
    ∃ v, r.on_first_read = .ok v ∧ v.flexible = true := by
  rw [ZeroCopyReader.on_first_read]
  split
  · exact ⟨r, rfl, hf⟩
  · dsimp only
    obtain ⟨v, hv, hvf⟩ := read_byte_record_impl_flexible_ok
      { r with buffer := r.buffer.fill_buf.2.consume (trim_bom r.buffer.fill_buf.1) }
      (by simpa using hf)
    rw [hv]
    rcases v with ⟨orec, r1⟩
    cases orec
    · exact ⟨_, rfl, by simpa using hvf⟩
    · exact ⟨_, rfl, by simpa using hvf⟩

theorem read_byte_record_flexible_ok (r : ZeroCopyReader) (hf : r.flexible = true) :
    ∃ v, r.read_byte_record = .ok v ∧ v.2.flexible = true := by
  rw [ZeroCopyReader.read_byte_record]
  obtain ⟨v, hv, hvf⟩ := on_first_read_flexible_ok r hf
  rw [hv]
  dsimp only
  split
  · exact ⟨_, rfl, by simpa using hvf⟩
  · exact read_byte_record_impl_flexible_ok v hvf

theorem lookaheadLoop_flexible_ok :
    ∀ fuel (reader : ZeroCopyReader) i nr fcs pos, reader.flexible = true →
      ∃ v, lookaheadLoop fuel reader i nr fcs pos = .ok v := by
  intro fuel
  induction fuel with
  | zero =>
    intro reader i nr fcs pos hf
    exact ⟨_, rfl⟩
  | succ k ih =>
    intro reader i nr fcs pos hf
    rw [lookaheadLoop]
    obtain ⟨v, hv, hvf⟩ := read_byte_record_flexible_ok reader hf
    rw [hv]
    rcases v with ⟨orec, r'⟩
    cases orec
    · exact ⟨_, rfl⟩
    · exact ih r' _ _ _ _ hvf

theorem lookahead_flexible_ok (reader : ZeroCopyReader) (expected : Nat)
    (hf : reader.flexible = true) :
    ∃ v, lookahead reader expected = .ok v := by
  rw [lookahead]
  obtain ⟨v, hv⟩ := lookaheadLoop_flexible_ok _ reader 0 none [] 0 hf
  rw [hv]
  rcases v with ⟨fcs, nr⟩
  dsimp only
  split
  · exact ⟨_, rfl⟩
  · exact ⟨_, rfl⟩

theorem mkReader_flexible (sk : Seeker) (bytes : List Nat) :
    (sk.mkReader bytes).flexible = true := rfl

/-- **C8**: `Seeker::find_record_after(pos)` returns an `OutOfBounds` error
carrying `{pos, start = first_record_position, end = stream_len}` exactly
when `pos < first_record_position` or `pos ≥ stream_len` (no other error is
possible over an in-memory stream, since the seeker's stored builder is
flexible); and when `pos` equals `first_record_position` (and is in
bounds), the result is the record obtained by the direct read of the first
record at that offset — the two-hypothesis lookahead is not involved. -/
theorem find_record_after_bounds (sk : Seeker) (p : Nat) :
    ((∃ e, sk.find_record_after p = some (.error e)) ↔
      (p < sk.first_record_position ∨ sk.stream_len ≤ p))
    ∧ (∀ e, sk.find_record_after p = some (.error e) →
        e = .outOfBounds p sk.first_record_position sk.stream_len)
    ∧ (p = sk.first_record_position → p < sk.stream_len →
        sk.find_record_after p
          = (sk.directFirstRecord).map
              (fun rec => .ok (some (sk.first_record_position, rec)))) := by
  by_cases hoob : p < sk.first_record_position ∨ sk.stream_len ≤ p
  · refine ⟨⟨fun _ => hoob, fun _ => ?_⟩, ?_, ?_⟩
    · rw [Seeker.find_record_after, if_pos hoob]
      exact ⟨_, rfl⟩
    · intro e he
      rw [Seeker.find_record_after, if_pos hoob] at he
      simp only [Option.some.injEq, Except.error.injEq] at he
      exact he.symm
    · intro hp hlt
      subst hp
      rcases hoob with h | h
      · omega
      · omega
  · have hno : ∀ e, sk.find_record_after p ≠ some (.error e) := by
      intro e
      rw [Seeker.find_record_after, if_neg hoob]
      split
      · obtain ⟨v, hv, -⟩ := read_byte_record_flexible_ok
          (sk.mkReader (sk.stream.drop p)) (mkReader_flexible sk _)
        rw [hv]
        rcases v with ⟨orec, r'⟩
        cases orec
        · simp
        · simp
      · dsimp only
        obtain ⟨u, hu⟩ := lookahead_flexible_ok (sk.mkReader
          ((sk.stream.drop p).take (sk.lookahead_factor * sk.max_record_size)))
          sk.headers.numFields (mkReader_flexible sk _)
        rw [hu]
        dsimp only
        obtain ⟨w, hw⟩ := lookahead_flexible_ok (sk.mkReader
          (34 :: (sk.stream.drop p).take (sk.lookahead_factor * sk.max_record_size)))
          sk.headers.numFields (mkReader_flexible sk _)
        rw [hw]
        dsimp only
        rcases u with - | ⟨upos, urec⟩ <;> rcases w with - | ⟨qpos, qrec⟩
        · simp
        · simp
        · simp
        · dsimp only
          split
          · simp
          · split
            · simp
            · simp
    refine ⟨⟨fun he => ?_, fun h => absurd h hoob⟩, fun e he => absurd he (hno e), ?_⟩
    · obtain ⟨e, he⟩ := he
      exact absurd he (hno e)
    · intro hp hlt
      subst hp
      rw [Seeker.find_record_after, if_neg hoob, if_pos rfl, Seeker.directFirstRecord]
      obtain ⟨v, hv, -⟩ := read_byte_record_flexible_ok
        (sk.mkReader (sk.stream.drop sk.first_record_position)) (mkReader_flexible sk _)
      rw [hv]
      rcases v with ⟨orec, r'⟩
      cases orec
      · simp
      · simp

theorem find_record_after_bounds_witness :
    (seekerExample.find_record_after 0
      = some (.ok (some (0, ByteRecord.mk [97, 97, 98, 98] [(0, 2), (2, 4)]))))
    ∧ (∃ e, seekerExample.find_record_after 100 = some (.error e)) := by
  constructor
  · have h := (find_record_after_bounds seekerExample 0).2.2 rfl (by decide)
    rw [h]
    rfl
  · exact (find_record_after_bounds seekerExample 100).1.mpr (by decide)


theorem tz_spec : ∀ m, m ≠ 0 →
    Nat.testBit m (tz m) = true ∧ ∀ j < tz m, Nat.testBit m j = false := by
  intro m
  induction m using Nat.strong_induction_on with
  | _ m ih =>
    intro hm
    rw [tz]
    split
    · rename_i hcond
      have hodd : m % 2 = 1 := by
        rcases hcond with h | h
        · exact h
        · exact absurd h hm
      refine ⟨?_, by omega⟩
      rw [Nat.testBit_zero]
      simp [hodd]
    · rename_i hcond
      push_neg at hcond
      obtain ⟨heven, -⟩ := hcond
      have heven' : m % 2 = 0 := by omega
      have hm2 : m / 2 ≠ 0 := by omega
      obtain ⟨h1, h2⟩ := ih (m / 2) (by omega) hm2
      refine ⟨?_, ?_⟩
      · rw [Nat.testBit_succ]
        exact h1
      · intro j hj
        cases j with
        | zero =>
          rw [Nat.testBit_zero]
          simp [heven']
        | succ j' =>
          rw [Nat.testBit_succ]
          exact h2 j' (by omega)

theorem tz_lt_of_lt_two_pow (m k : Nat) (hm : m ≠ 0) (h : m < 2 ^ k) : tz m < k := by
  by_contra hge
  have hbit := (tz_spec m hm).1
  have : Nat.testBit m (tz m) = false :=
    Nat.testBit_lt_two_pow (Nat.lt_of_lt_of_le h (Nat.pow_le_pow_right (by omega) (by omega)))
  rw [this] at hbit
  cases hbit

theorem clearLsb_testBit : ∀ m, m ≠ 0 →
    ∀ j, Nat.testBit (clearLsb m) j = (Nat.testBit m j && !(j == tz m)) := by
  intro m
  induction m using Nat.strong_induction_on with
  | _ m ih =>
    intro hm j
    by_cases hodd : m % 2 = 1
    · rw [tz, if_pos (Or.inl hodd)]
      cases j with
      | zero =>
        rw [clearLsb, Nat.testBit_land, Nat.testBit_zero, Nat.testBit_zero]
        have hpred : (m - 1) % 2 = 0 := by omega
        simp [hpred]
      | succ j' =>
        rw [clearLsb, Nat.testBit_land, Nat.testBit_succ, Nat.testBit_succ]
        have hpred : (m - 1) / 2 = m / 2 := by omega
        rw [hpred]
        simp
    · have heven : m % 2 = 0 := by omega
      rw [tz, if_neg (by omega)]
      cases j with
      | zero =>
        rw [clearLsb, Nat.testBit_land, Nat.testBit_zero, Nat.testBit_zero]
        simp [heven]
      | succ j' =>
        rw [clearLsb, Nat.testBit_land, Nat.testBit_succ, Nat.testBit_succ]
        have hpred : (m - 1) / 2 = m / 2 - 1 := by omega
        rw [hpred]
        have hm2 : m / 2 ≠ 0 := by omega
        have hrec := ih (m / 2) (by omega) hm2 j'
        rw [clearLsb, Nat.testBit_land] at hrec
        rw [hrec]
        simp [Nat.succ_eq_add_one]

theorem clearLsb_lt (m : Nat) (hm : m ≠ 0) : clearLsb m < m :=
  Nat.lt_of_le_of_lt Nat.and_le_right (by omega)

theorem clearLsb_le (m : Nat) : clearLsb m ≤ m :=
  Nat.and_le_left

theorem maskBits_testBit (k : Nat) :
    ∀ (f : Nat → Bool) (j : Nat),
      Nat.testBit (maskBits f k) j = (decide (j < k) && f j) := by
  induction k with
  | zero =>
    intro f j
    simp [maskBits]
  | succ k ih =>
    intro f j
    rw [maskBits]
    cases j with
    | zero =>
      rw [Nat.testBit_zero]
      by_cases hf : f 0 <;> simp [hf, Nat.add_mul_mod_self_left]
    | succ j' =>
      rw [Nat.testBit_succ]
      have hdiv : ((if f 0 then 1 else 0) + 2 * maskBits (fun j => f (j + 1)) k) / 2
          = maskBits (fun j => f (j + 1)) k := by
        by_cases hf : f 0 <;> simp [hf] <;> omega
      rw [hdiv, ih]
      simp [Nat.succ_lt_succ_iff]

theorem maskBits_lt_two_pow (k : Nat) : ∀ f, maskBits f k < 2 ^ k := by
  induction k with
  | zero =>
    intro f
    simp [maskBits]
  | succ k ih =>
    intro f
    rw [maskBits]
    have := ih (fun j => f (j + 1))
    have hpow : 2 ^ (k + 1) = 2 * 2 ^ k := by ring
    by_cases hf : f 0 <;> simp [hf] <;> omega

theorem scalarLoop_none (hay : List Nat) (n1 n2 n3 smask : Nat) :
    ∀ k cur, hay.length - cur ≤ k →
      (∀ i, cur ≤ i → i < hay.length → isMatchAt hay n1 n2 n3 i = false) →
      scalarLoop hay n1 n2 n3 smask cur = none := by
  intro k
  induction k with
  | zero =>
    intro cur hk h
    rw [scalarLoop, if_neg (by omega)]
  | succ k ih =>
    intro cur hk h
    rw [scalarLoop]
    by_cases hc : cur < hay.length
    · rw [if_pos hc, if_neg (by simp [h cur (Nat.le_refl cur) hc])]
      exact ih (cur + 1) (by omega) (fun i hi hlen => h i (by omega) hlen)
    · rw [if_neg hc]

theorem scalarLoop_found (hay : List Nat) (n1 n2 n3 smask : Nat) :
    ∀ k cur m, hay.length - cur ≤ k → cur ≤ m → m < hay.length →
      isMatchAt hay n1 n2 n3 m = true →
      (∀ i, cur ≤ i → i < m → isMatchAt hay n1 n2 n3 i = false) →
      scalarLoop hay n1 n2 n3 smask cur = some (m, ⟨m + 1, smask⟩) := by
  intro k
  induction k with
  | zero =>
    intro cur m hk hcm hm hmatch h
    omega
  | succ k ih =>
    intro cur m hk hcm hm hmatch h
    rw [scalarLoop, if_pos (by omega : cur < hay.length)]
    by_cases hcur : cur = m
    · subst hcur
      rw [if_pos hmatch]
    · rw [if_neg (by simp [h cur (Nat.le_refl cur) (by omega)])]
      exact ih (cur + 1) m (by omega) (by omega) hm hmatch
        (fun i hi h2 => h i (by omega) h2)

theorem vectorLoop_none (hay : List Nat) (n1 n2 n3 smask : Nat) :
    ∀ k cur, hay.length + SSE2_STEP - cur ≤ k →
      (∀ i, cur ≤ i → i < hay.length → isMatchAt hay n1 n2 n3 i = false) →
      vectorLoop hay n1 n2 n3 smask cur = none := by
  intro k
  induction k with
  | zero =>
    intro cur hk h
    rw [vectorLoop, if_neg (by simp only [SSE2_STEP] at *; omega)]
    exact scalarLoop_none hay n1 n2 n3 smask hay.length cur (Nat.sub_le _ _) h
  | succ k ih =>
    intro cur hk h
    rw [vectorLoop]
    by_cases hc : cur + SSE2_STEP ≤ hay.length
    · rw [if_pos hc]
      have hm0 : maskOf hay n1 n2 n3 cur = 0 := by
        apply Nat.eq_of_testBit_eq
        intro j
        rw [Nat.zero_testBit, maskOf, maskBits_testBit]
        by_cases hj : j < 16
        · simp only [hj, decide_True, Bool.true_and]
          exact h (cur + j) (by omega) (by simp only [SSE2_STEP] at hc; omega)
        · simp [hj]
      dsimp only
      rw [hm0, if_neg (by simp)]
      exact ih (cur + SSE2_STEP) (by simp only [SSE2_STEP] at *; omega)
        (fun i hi h2 => h i (by simp only [SSE2_STEP] at hi; omega) h2)
    · rw [if_neg hc]
      exact scalarLoop_none hay n1 n2 n3 smask hay.length cur (Nat.sub_le _ _) h

theorem clearLsb_state_coh (hay : List Nat) (n1 n2 n3 w cur M m : Nat)
    (hM : M ≠ 0) (hMlt : M < 2 ^ 16) (h16 : SSE2_STEP ≤ cur) (hclen : cur ≤ hay.length)
    (hcw : cur ≤ w + SSE2_STEP)
    (hbits : ∀ j, Nat.testBit M j =
      (decide (j < SSE2_STEP) && decide (w ≤ cur - SSE2_STEP + j) &&
        isMatchAt hay n1 n2 n3 (cur - SSE2_STEP + j)))
    (hm : m = cur - SSE2_STEP + tz M) :
    IterCoh hay n1 n2 n3 (m + 1) ⟨cur, clearLsb M⟩ := by
  have htzlt : tz M < 16 := tz_lt_of_lt_two_pow M 16 hM hMlt
  simp only [SSE2_STEP] at h16 hcw hbits hm
  rw [IterCoh]
  dsimp only
  simp only [SSE2_STEP]
  have hbtz : Nat.testBit M (tz M) = true := (tz_spec M hM).1
  rw [hbits (tz M), Bool.and_eq_true, Bool.and_eq_true] at hbtz
  obtain ⟨⟨-, hwm'⟩, hmatchm⟩ := hbtz
  have hwm : w ≤ cur - 16 + tz M := of_decide_eq_true hwm'
  by_cases hcl : clearLsb M = 0
  · left
    refine ⟨hcl, by omega, hclen, ?_⟩
    intro i hwi hic
    cases hmi : isMatchAt hay n1 n2 n3 i
    · rfl
    · exfalso
      have hbit : Nat.testBit M (i - (cur - 16)) = true := by
        rw [hbits]
        have h2 : cur - 16 + (i - (cur - 16)) = i := by omega
        simp only [h2]
        have ha : decide (i - (cur - 16) < 16) = true := by
          simp only [decide_eq_true_eq]
          omega
        have hb : decide (w ≤ i) = true := by
          simp only [decide_eq_true_eq]
          omega
        rw [ha, hb, hmi]
        rfl
      have hcb := clearLsb_testBit M hM (i - (cur - 16))
      rw [hcl, Nat.zero_testBit, hbit] at hcb
      have hne : i - (cur - 16) ≠ tz M := by omega
      simp [hne] at hcb
  · right
    refine ⟨hcl, Nat.lt_of_le_of_lt (clearLsb_le M) hMlt, h16, hclen, by omega, ?_⟩
    intro j
    rw [clearLsb_testBit M hM j, hbits j]
    by_cases hj16 : j < 16
    · rcases Nat.lt_trichotomy j (tz M) with h1 | h1 | h1
      · have hbj : Nat.testBit M j = false := (tz_spec M hM).2 j h1
        rw [hbits j] at hbj
        rw [hbj]
        have hdec : ¬(m + 1 ≤ cur - 16 + j) := by omega
        simp [hdec]
      · subst h1
        have hdec : ¬(m + 1 ≤ cur - 16 + tz M) := by omega
        simp [hdec]
      · have h1' : ¬(j = tz M) := by omega
        have hDw : decide (w ≤ cur - 16 + j) = true := by
          simp only [decide_eq_true_eq]
          omega
        have hDm : decide (m + 1 ≤ cur - 16 + j) = true := by
          simp only [decide_eq_true_eq]
          omega
        rw [hDw, hDm]
        simp [h1']
    · simp [hj16]

theorem vectorLoop_found (hay : List Nat) (n1 n2 n3 : Nat) :
    ∀ k cur m, hay.length + SSE2_STEP - cur ≤ k → cur ≤ m → m < hay.length →
      isMatchAt hay n1 n2 n3 m = true →
      (∀ i, cur ≤ i → i < m → isMatchAt hay n1 n2 n3 i = false) →
      ∃ s', vectorLoop hay n1 n2 n3 0 cur = some (m, s') ∧
        IterCoh hay n1 n2 n3 (m + 1) s' := by
  intro k
  induction k with
  | zero =>
    intro cur m hk hcm hm hmatch h
    simp only [SSE2_STEP] at hk
    omega
  | succ k ih =>
    intro cur m hk hcm hm hmatch h
    rw [vectorLoop]
    by_cases hc : cur + SSE2_STEP ≤ hay.length
    · rw [if_pos hc]
      dsimp only
      have hbitsM : ∀ j, Nat.testBit (maskOf hay n1 n2 n3 cur) j =
          (decide (j < 16) && isMatchAt hay n1 n2 n3 (cur + j)) := by
        intro j
        simp only [maskOf, maskBits_testBit]
      by_cases hM : maskOf hay n1 n2 n3 cur ≠ 0
      · rw [if_pos hM]
        have hMlt : maskOf hay n1 n2 n3 cur < 2 ^ 16 := by
          rw [maskOf]
          exact maskBits_lt_two_pow 16 _
        have htzlt : tz (maskOf hay n1 n2 n3 cur) < 16 :=
          tz_lt_of_lt_two_pow _ 16 hM hMlt
        have hbtz := (tz_spec _ hM).1
        rw [hbitsM, Bool.and_eq_true] at hbtz
        obtain ⟨-, hmatchtz⟩ := hbtz
        have hbelowtz : ∀ j, j < tz (maskOf hay n1 n2 n3 cur) →
            isMatchAt hay n1 n2 n3 (cur + j) = false := by
          intro j hj
          have hbf := (tz_spec _ hM).2 j hj
          rw [hbitsM] at hbf
          have hj16 : decide (j < 16) = true := by
            simp only [decide_eq_true_eq]
            omega
          rw [hj16, Bool.true_and] at hbf
          exact hbf
        have hle1 : m ≤ cur + tz (maskOf hay n1 n2 n3 cur) := by
          by_contra hgt
          push_neg at hgt
          have hff := h (cur + tz (maskOf hay n1 n2 n3 cur)) (by omega) hgt
          rw [hff] at hmatchtz
          cases hmatchtz
        have hle2 : cur + tz (maskOf hay n1 n2 n3 cur) ≤ m := by
          by_contra hgt
          push_neg at hgt
          have hff := hbelowtz (m - cur) (by omega)
          rw [show cur + (m - cur) = m from by omega] at hff
          rw [hff] at hmatch
          cases hmatch
        have heq : m = cur + tz (maskOf hay n1 n2 n3 cur) := by omega
        refine ⟨⟨cur + SSE2_STEP, clearLsb (maskOf hay n1 n2 n3 cur)⟩, ?_, ?_⟩
        · have hoff : cur + SSE2_STEP - SSE2_STEP + tz (maskOf hay n1 n2 n3 cur) = m := by
            simp only [SSE2_STEP]
            omega
          rw [hoff]
        · have hbits' : ∀ j, Nat.testBit (maskOf hay n1 n2 n3 cur) j =
              (decide (j < SSE2_STEP) && decide (cur ≤ cur + SSE2_STEP - SSE2_STEP + j) &&
                isMatchAt hay n1 n2 n3 (cur + SSE2_STEP - SSE2_STEP + j)) := by
            intro j
            rw [hbitsM j]
            have hred : cur + SSE2_STEP - SSE2_STEP + j = cur + j := by
              simp only [SSE2_STEP]
              omega
            rw [hred]
            simp [SSE2_STEP]
          exact clearLsb_state_coh hay n1 n2 n3 cur (cur + SSE2_STEP)
            (maskOf hay n1 n2 n3 cur) m hM hMlt (Nat.le_add_left _ _) hc
            (Nat.le_refl _) hbits'
            (by simp only [SSE2_STEP]; omega)
      · rw [if_neg hM]
        push_neg at hM
        have hnochunk : ∀ i, cur ≤ i → i < cur + SSE2_STEP →
            isMatchAt hay n1 n2 n3 i = false := by
          intro i h1 h2
          have hbf : Nat.testBit (maskOf hay n1 n2 n3 cur) (i - cur) = false := by
            rw [hM, Nat.zero_testBit]
          rw [hbitsM] at hbf
          have hj16 : decide (i - cur < 16) = true := by
            simp only [decide_eq_true_eq]
            simp only [SSE2_STEP] at h2
            omega
          rw [hj16, Bool.true_and, show cur + (i - cur) = i from by omega] at hbf
          exact hbf
        have hmge : cur + SSE2_STEP ≤ m := by
          by_contra hlt
          push_neg at hlt
          have hff := hnochunk m hcm hlt
          rw [hff] at hmatch
          cases hmatch
        exact ih (cur + SSE2_STEP) m (by simp only [SSE2_STEP] at *; omega) hmge hm hmatch
          (fun i hi h2 => h i (by omega) h2)
    · rw [if_neg hc]
      refine ⟨⟨m + 1, 0⟩, ?_, ?_⟩
      · exact scalarLoop_found hay n1 n2 n3 0 hay.length cur m (Nat.sub_le _ _) hcm hm hmatch h
      · rw [IterCoh]
        dsimp only
        left
        exact ⟨rfl, Nat.le_refl _, by omega,
          fun i h1 h2 => absurd (Nat.lt_of_le_of_lt h1 h2) (Nat.lt_irrefl _)⟩

theorem sse2Next_none (hay : List Nat) (n1 n2 n3 w : Nat) (s : SSE2Indices)
    (hcoh : IterCoh hay n1 n2 n3 w s)
    (hnone : ∀ i, w ≤ i → i < hay.length → isMatchAt hay n1 n2 n3 i = false) :
    sse2Next hay n1 n2 n3 s = none := by
  rw [sse2Next]
  by_cases h0 : hay.length = 0
  · rw [if_pos h0]
  · rw [if_neg h0]
    rw [IterCoh] at hcoh
    rcases hcoh with ⟨hm, hwc, hcl, hnm⟩ | ⟨hm, hlt, h16, hcl, hcw, hbits⟩
    · rw [if_neg (by simp [hm])]
      exact vectorLoop_none hay n1 n2 n3 s.mask (hay.length + SSE2_STEP) s.current
        (Nat.sub_le _ _) (fun i hi h2 => hnone i (by omega) h2)
    · exfalso
      have htzlt : tz s.mask < 16 := tz_lt_of_lt_two_pow _ 16 hm hlt
      have hbtz := (tz_spec _ hm).1
      rw [hbits, Bool.and_eq_true, Bool.and_eq_true] at hbtz
      obtain ⟨⟨-, hw'⟩, hmt⟩ := hbtz
      have hw2 : w ≤ s.current - SSE2_STEP + tz s.mask := of_decide_eq_true hw'
      have hplt : s.current - SSE2_STEP + tz s.mask < hay.length := by
        simp only [SSE2_STEP] at *
        omega
      have hff := hnone _ hw2 hplt
      rw [hff] at hmt
      cases hmt

theorem sse2Next_found (hay : List Nat) (n1 n2 n3 w m : Nat) (s : SSE2Indices)
    (hcoh : IterCoh hay n1 n2 n3 w s)
    (hm_lt : m < hay.length) (hwm : w ≤ m)
    (hmatch : isMatchAt hay n1 n2 n3 m = true)
    (hmin : ∀ i, w ≤ i → i < m → isMatchAt hay n1 n2 n3 i = false) :
    ∃ s', sse2Next hay n1 n2 n3 s = some (m, s') ∧ IterCoh hay n1 n2 n3 (m + 1) s' := by
  rw [sse2Next, if_neg (by omega : ¬hay.length = 0)]
  rw [IterCoh] at hcoh
  rcases hcoh with ⟨hm0, hwc, hclen, hnm⟩ | ⟨hmne, hlt, h16, hclen, hcw, hbits⟩
  · rw [if_neg (by simp [hm0]), hm0]
    have hcm : s.current ≤ m := by
      by_contra hgt
      push_neg at hgt
      have hff := hnm m hwm hgt
      rw [hff] at hmatch
      cases hmatch
    exact vectorLoop_found hay n1 n2 n3 (hay.length + SSE2_STEP) s.current m
      (Nat.sub_le _ _) hcm hm_lt hmatch (fun i hi h2 => hmin i (by omega) h2)
  · rw [if_pos hmne]
    have htzlt : tz s.mask < 16 := tz_lt_of_lt_two_pow _ 16 hmne hlt
    have hbtz := (tz_spec _ hmne).1
    rw [hbits, Bool.and_eq_true, Bool.and_eq_true] at hbtz
    obtain ⟨⟨-, hw'⟩, hmt⟩ := hbtz
    have hw2 : w ≤ s.current - SSE2_STEP + tz s.mask := of_decide_eq_true hw'
    have hplt : s.current - SSE2_STEP + tz s.mask < hay.length := by
      simp only [SSE2_STEP] at *
      omega
    have hle1 : m ≤ s.current - SSE2_STEP + tz s.mask := by
      by_contra hgt
      push_neg at hgt
      have hff := hmin _ hw2 hgt
      rw [hff] at hmt
      cases hmt
    have hle2 : s.current - SSE2_STEP + tz s.mask ≤ m := by
      by_contra hgt
      push_neg at hgt
      have hbj : Nat.testBit s.mask (m - (s.current - SSE2_STEP)) = false := by
        apply (tz_spec _ hmne).2
        simp only [SSE2_STEP] at *
        omega
      rw [hbits] at hbj
      have h1 : decide (m - (s.current - SSE2_STEP) < SSE2_STEP) = true := by
        simp only [SSE2_STEP] at *
        simp only [decide_eq_true_eq]
        omega
      have h2 : s.current - SSE2_STEP + (m - (s.current - SSE2_STEP)) = m := by
        simp only [SSE2_STEP] at *
        omega
      simp only [h2, h1, Bool.true_and] at hbj
      rw [hmatch] at hbj
      simp [hwm] at hbj
    have heq : s.current - SSE2_STEP + tz s.mask = m := by omega
    refine ⟨⟨s.current, clearLsb s.mask⟩, ?_, ?_⟩
    · rw [heq]
    · exact clearLsb_state_coh hay n1 n2 n3 w s.current s.mask m hmne hlt h16 hclen hcw hbits
        heq.symm

theorem filter_range_cons_head (p : Nat → Bool) (n m : Nat) (rest : List Nat)
    (h : (List.range n).filter p = m :: rest) :
    m < n ∧ p m = true ∧ ∀ j, j < m → p j = false := by
  have hmem : m ∈ (List.range n).filter p := by
    rw [h]
    exact List.mem_cons_self m rest
  rw [List.mem_filter, List.mem_range] at hmem
  refine ⟨hmem.1, hmem.2, ?_⟩
  intro j hj
  cases hpj : p j
  · rfl
  · exfalso
    have hjmem : j ∈ (List.range n).filter p := by
      rw [List.mem_filter, List.mem_range]
      exact ⟨by omega, hpj⟩
    rw [h, List.mem_cons] at hjmem
    rcases hjmem with rfl | hjr
    · omega
    · have hpw : ((List.range n).filter p).Pairwise (· < ·) :=
        (List.pairwise_lt_range n).filter p
      rw [h, List.pairwise_cons] at hpw
      have := hpw.1 j hjr
      omega

theorem filter_range_step (p q : Nat → Bool) (m : Nat)
    (hq : ∀ j, q j = (p j && decide (m < j))) :
    ∀ n, m < n → p m = true → (∀ j, j < m → p j = false) →
      (List.range n).filter p = m :: (List.range n).filter q := by
  intro n
  induction n with
  | zero =>
    intro h
    exact absurd h (Nat.not_lt_zero m)
  | succ n ih =>
    intro hmn hp hbelow
    rw [List.range_succ, List.filter_append, List.filter_append]
    by_cases hmn' : m < n
    · rw [ih hmn' hp hbelow]
      have hsing : List.filter p [n] = List.filter q [n] := by
        have hqn : q n = p n := by
          rw [hq n]
          simp [hmn']
        cases hpn : p n <;> simp [List.filter_cons, hpn, hqn]
      rw [hsing, List.cons_append]
    · have hm_eq : m = n := by omega
      subst hm_eq
      have h1 : (List.range m).filter p = [] := by
        rw [List.filter_eq_nil_iff]
        intro a ha
        rw [List.mem_range] at ha
        simp [hbelow a ha]
      have h2 : (List.range m).filter q = [] := by
        rw [List.filter_eq_nil_iff]
        intro a ha
        rw [List.mem_range] at ha
        simp [hq a, hbelow a ha]
      have h3 : List.filter p [m] = [m] := by
        simp [List.filter_cons, hp]
      have h4 : List.filter q [m] = [] := by
        simp [List.filter_cons, hq m]
      rw [h1, h2, h3, h4]
      rfl

theorem sse2EmitGo_spec (hay : List Nat) (n1 n2 n3 : Nat) :
    ∀ fuel w s, IterCoh hay n1 n2 n3 w s →
      ((List.range hay.length).filter
        (fun i => decide (w ≤ i) && isMatchAt hay n1 n2 n3 i)).length ≤ fuel →
      sse2EmitGo hay n1 n2 n3 fuel s =
        (List.range hay.length).filter (fun i => decide (w ≤ i) && isMatchAt hay n1 n2 n3 i) := by
  intro fuel
  induction fuel with
  | zero =>
    intro w s hcoh hlen
    have hnil := List.length_eq_zero.mp (Nat.le_zero.mp hlen)
    rw [hnil]
    rfl
  | succ fuel ih =>
    intro w s hcoh hlen
    rcases hsplit : (List.range hay.length).filter
        (fun i => decide (w ≤ i) && isMatchAt hay n1 n2 n3 i) with _ | ⟨m, rest⟩
    · have hnone : ∀ i, w ≤ i → i < hay.length → isMatchAt hay n1 n2 n3 i = false := by
        intro i hwi hil
        have hni := List.filter_eq_nil_iff.mp hsplit i (List.mem_range.mpr hil)
        simpa [hwi] using hni
      simp only [sse2EmitGo]
      rw [sse2Next_none hay n1 n2 n3 w s hcoh hnone]
    · obtain ⟨hmlt, hpm, hbelow⟩ := filter_range_cons_head _ _ _ _ hsplit
      rw [Bool.and_eq_true] at hpm
      obtain ⟨hwm', hmatch⟩ := hpm
      have hwm : w ≤ m := of_decide_eq_true hwm'
      have hmin : ∀ i, w ≤ i → i < m → isMatchAt hay n1 n2 n3 i = false := by
        intro i hwi him
        have hb := hbelow i him
        simpa [hwi] using hb
      obtain ⟨s', hnext, hcoh'⟩ := sse2Next_found hay n1 n2 n3 w m s hcoh hmlt hwm hmatch hmin
      simp only [sse2EmitGo]
      rw [hnext]
      dsimp only
      have hqlem : ∀ j, (fun i => decide (m + 1 ≤ i) && isMatchAt hay n1 n2 n3 i) j
          = ((fun i => decide (w ≤ i) && isMatchAt hay n1 n2 n3 i) j && decide (m < j)) := by
        intro j
        dsimp only
        by_cases hj : m < j
        · have hw1 : decide (m + 1 ≤ j) = true := by
            simp only [decide_eq_true_eq]
            omega
          have hw2 : decide (w ≤ j) = true := by
            simp only [decide_eq_true_eq]
            omega
          have hw3 : decide (m < j) = true := by
            simp only [decide_eq_true_eq]
            omega
          rw [hw1, hw2, hw3]
          simp
        · have hw1 : decide (m + 1 ≤ j) = false := by
            simp only [decide_eq_false_iff_not]
            omega
          have hw3 : decide (m < j) = false := by
            simp only [decide_eq_false_iff_not]
            omega
          rw [hw1, hw3]
          simp
      have hstep := filter_range_step _ _ m hqlem hay.length hmlt
        (by simp [hwm, hmatch]) hbelow
      rw [hsplit] at hstep
      have hrest : rest = (List.range hay.length).filter
          (fun i => decide (m + 1 ≤ i) && isMatchAt hay n1 n2 n3 i) := by
        injection hstep
      have hlen' : ((List.range hay.length).filter
          (fun i => decide (m + 1 ≤ i) && isMatchAt hay n1 n2 n3 i)).length ≤ fuel := by
        rw [← hrest]
        rw [hsplit] at hlen
        simp only [List.length_cons] at hlen
        omega
      rw [hrest, ih (m + 1) s' hcoh' hlen']

/-- **C1**: for every haystack byte string and every triple of needle bytes
(duplicates allowed), the lazy sequence produced by `Searcher::search` (the
`SSE2Indices` iterator) yields exactly the strictly increasing sequence of
offsets `i` such that `haystack[i]` is one of the three needles — no offset
missing, none duplicated, none out of order — and once the iterator is
exhausted it stays exhausted (a `None` leaves the iterator state untouched, so
the next call returns `None` again). -/
theorem searcher_search_exact (hay : List Nat) (n1 n2 n3 : Nat) :
    searcherSearch hay n1 n2 n3 = searchSpec hay n1 n2 n3
    ∧ List.Pairwise (· < ·) (searcherSearch hay n1 n2 n3)
    ∧ ∀ s : SSE2Indices, (sse2Step hay n1 n2 n3 s).1 = none →
        sse2Step hay n1 n2 n3 ((sse2Step hay n1 n2 n3 s).2) = sse2Step hay n1 n2 n3 s := by
  have hcoh0 : IterCoh hay n1 n2 n3 0 ⟨0, 0⟩ := by
    rw [IterCoh]
    dsimp only
    left
    exact ⟨rfl, Nat.le_refl 0, Nat.zero_le _, fun i h1 h2 => absurd h2 (Nat.not_lt_zero i)⟩
  have hmain : searcherSearch hay n1 n2 n3 = searchSpec hay n1 n2 n3 := by
    rw [searcherSearch]
    have hlen : ((List.range hay.length).filter
        (fun i => decide (0 ≤ i) && isMatchAt hay n1 n2 n3 i)).length ≤ hay.length + 1 := by
      have h1 := List.length_filter_le (fun i => decide (0 ≤ i) && isMatchAt hay n1 n2 n3 i)
        (List.range hay.length)
      rw [List.length_range] at h1
      omega
    rw [sse2EmitGo_spec hay n1 n2 n3 (hay.length + 1) 0 ⟨0, 0⟩ hcoh0 hlen, searchSpec]
    apply List.filter_congr
    intro a ha
    simp
  refine ⟨hmain, ?_, ?_⟩
  · rw [hmain, searchSpec]
    exact (List.pairwise_lt_range hay.length).filter (isMatchAt hay n1 n2 n3)
  · intro s hs
    rcases hnext : sse2Next hay n1 n2 n3 s with _ | ⟨o, s2⟩
    · simp [sse2Step, hnext]
    · simp [sse2Step, hnext] at hs

/-- Concrete check of `searcher_search_exact`: searching `"a\nb\r"` for the
needles `(LF, CR, quote)` yields `[1, 3]`, and stepping the exhausted iterator
state twice keeps returning `None` with the same state. -/
theorem searcher_search_exact_witness :
    searcherSearch [97, 10, 98, 13] 10 13 34 = [1, 3]
    ∧ sse2Step [97, 10, 98, 13] 10 13 34 ((sse2Step [97, 10, 98, 13] 10 13 34 ⟨4, 0⟩).2)
        = sse2Step [97, 10, 98, 13] 10 13 34 ⟨4, 0⟩ := by
  refine ⟨?_, (searcher_search_exact [97, 10, 98, 13] 10 13 34).2.2 ⟨4, 0⟩ ?_⟩
  · rw [(searcher_search_exact [97, 10, 98, 13] 10 13 34).1]
    decide
  · simp [sse2Step, sse2Next, vectorLoop, scalarLoop, SSE2_STEP]

end SimdCsv
